import Mathlib

/-!
Verification of the torchbearer spatial-query core: the Bresenham line
rasterizer (src/torchbearer/src/bresenham.rs), the field-of-view engine
(src/torchbearer/src/fov.rs) and the A* pathfinding engine
(src/torchbearer/src/path.rs), shallowly embedded in Lean.

Machine integers (i32) are modelled as unbounded Int: none of the verified
properties exercises i32 overflow.  f32 costs are modelled as exact
rationals (Rat); the literals 1. and 0.001 of the source become the exact
rationals 1 and 1/1000.  Rust panics are modelled as an Option none result.
-/

set_option linter.unusedVariables false

/-- A grid point, Rust type Point = (i32, i32). -/
abbrev TPoint := Int × Int

/-! ## Line rasterizer (bresenham.rs) -/

/-- Rust struct Octant(u8). -/
structure Octant where
  val : Nat

/-- Octant.from_points of bresenham.rs: classify the direction of the
segment start-to-end into one of 8 octants.  The Rust body mutates dx, dy
and octant in sequence; the lets below replay the same sequence. -/
def Octant.from_points (s e : TPoint) : Octant :=
  let dx0 := e.1 - s.1
  let dy0 := e.2 - s.2
  let d1 := if dy0 < 0 then (-dx0, -dy0, 4) else (dx0, dy0, 0)
  let d2 := if d1.1 < 0 then (d1.2.1, -d1.1, d1.2.2 + 2) else d1
  ⟨if d2.1 < d2.2.1 then d2.2.2 + 1 else d2.2.2⟩

/-- Octant.to_octant0 of bresenham.rs: map a point into the canonical
octant 0.  The Rust default arm is unreachable! (from_points only yields
0..=7); the Lean default returns p. -/
def Octant.to_octant0 (o : Octant) (p : TPoint) : TPoint :=
  match o.val with
  | 0 => (p.1, p.2)
  | 1 => (p.2, p.1)
  | 2 => (p.2, -p.1)
  | 3 => (-p.1, p.2)
  | 4 => (-p.1, -p.2)
  | 5 => (-p.2, -p.1)
  | 6 => (-p.2, p.1)
  | 7 => (p.1, -p.2)
  | _ => p

/-- Octant.from_octant0 of bresenham.rs: map a canonical-octant point back
into the original octant. -/
def Octant.from_octant0 (o : Octant) (p : TPoint) : TPoint :=
  match o.val with
  | 0 => (p.1, p.2)
  | 1 => (p.2, p.1)
  | 2 => (-p.2, p.1)
  | 3 => (-p.1, p.2)
  | 4 => (-p.1, -p.2)
  | 5 => (-p.2, -p.1)
  | 6 => (p.2, -p.1)
  | 7 => (p.1, -p.2)
  | _ => p

/-- Rust struct LineBresenham: the iterator state. -/
structure LineBresenham where
  x : Int
  y : Int
  dx : Int
  dy : Int
  x1 : Int
  y1 : Int
  diff : Int
  octant : Octant

/-- LineBresenham::new of bresenham.rs. -/
def LineBresenham.new (s e : TPoint) : LineBresenham :=
  let octant := Octant.from_points s e
  let s0 := octant.to_octant0 s
  let e0 := octant.to_octant0 e
  let dx := e0.1 - s0.1
  let dy := e0.2 - s0.2
  { x := s0.1, y := s0.2, dx := dx, dy := dy,
    x1 := e0.1, y1 := e0.2, diff := dy - dx, octant := octant }

/-- Iterator::next of LineBresenham in bresenham.rs, as a state
transformer: some (yielded point, next state) or none when exhausted. -/
def LineBresenham.next (b : LineBresenham) : Option (TPoint × LineBresenham) :=
  if b.x = b.x1 then
    some (b.octant.from_octant0 (b.x1, b.y1), { b with x := b.x + 1 })
  else if b.x > b.x1 then
    none
  else
    let p := (b.x, b.y)
    let b2 :=
      if b.diff ≥ 0 then
        { b with y := b.y + 1, diff := b.diff - b.dx + b.dy, x := b.x + 1 }
      else
        { b with diff := b.diff + b.dy, x := b.x + 1 }
    some (b.octant.from_octant0 p, b2)

/-- Drive the iterator for at most fuel steps, collecting the yielded
points in order. -/
def LineBresenham.iterate (fuel : Nat) (b : LineBresenham) : List TPoint :=
  match fuel with
  | 0 => []
  | fuel + 1 =>
    match b.next with
    | none => []
    | some (p, b2) => p :: LineBresenham.iterate fuel b2

/-- The full (finite) sequence of points the iterator yields: the fuel
bound x1 + 2 - x strictly dominates the number of steps the Rust iterator
takes before returning None. -/
def LineBresenham.toList (b : LineBresenham) : List TPoint :=
  LineBresenham.iterate (b.x1 + 2 - b.x).toNat b

/-! ## Field of view (fov.rs) -/

/-- The Map capability consumed by the FOV engine (trait Map of fov.rs):
dimensions plus per-cell opacity. -/
structure FovMap where
  width : Int
  height : Int
  is_opaque : Int → Int → Bool

/-- is_bounded of fov.rs: despite its name it returns true when (x, y)
lies outside the map. -/
def is_bounded (m : FovMap) (x y : Int) : Bool :=
  decide (x < 0) || decide (y < 0) || decide (x ≥ m.width) || decide (y ≥ m.height)

/-- The visibles buffer (Rust Vec of bool indexed by x + y * sub_width),
modelled as a total function on Int indices; within the algorithm every
access is in range. -/
def Buf := Int → Bool

/-- Write true at index i. -/
def setIdx (b : Buf) (i : Int) : Buf := fun j => if j = i then true else b j

/-- Loop body of cast_ray of fov.rs over the remaining ray points: mark
each point visible when within the radius (or radius_square = 0), stop
after the first opaque cell (which is itself still marked). -/
def ray_loop (m : FovMap) (width : Int) (origin : TPoint)
    (radius_square ox oy : Int) : List TPoint → Buf → Buf
  | [], b => b
  | (x, y) :: rest, b =>
    let distance := (x - origin.1) ^ 2 + (y - origin.2) ^ 2
    let b2 := if distance ≤ radius_square ∨ radius_square = 0 then
        setIdx b (x + y * width) else b
    if m.is_opaque (x + ox) (y + oy) then b2
    else ray_loop m width origin radius_square ox oy rest b2

/-- cast_ray of fov.rs: walk the Bresenham ray from origin to destination,
skipping the origin itself (the skip(1) of the source). -/
def cast_ray (m : FovMap) (b : Buf) (width : Int) (origin destination : TPoint)
    (radius_square ox oy : Int) : Buf :=
  ray_loop m width origin radius_square ox oy
    ((LineBresenham.new origin destination).toList.drop 1) b

/-- The reveal condition of post_process_vision of fov.rs for cell (x, y):
one of the two orthogonal neighbours (x + dx, y) and (x, y + dy) is
transparent and already visible. -/
def pp_cond (m : FovMap) (b : Buf) (width x y dx dy ox oy : Int) : Bool :=
  (!(m.is_opaque (x + dx + ox) (y + oy)) && b ((x + dx) + y * width)) ||
  (!(m.is_opaque (x + ox) (y + dy + oy)) && b (x + (y + dy) * width))

/-- Body of the inner loop of post_process_vision of fov.rs for one cell:
reveal a hidden wall cell whose reveal condition holds. -/
def pp_cell (m : FovMap) (width dx dy ox oy : Int) (b : Buf) (x y : Int) : Buf :=
  if m.is_opaque (x + ox) (y + oy) && !(b (x + y * width)) then
    if pp_cond m b width x y dx dy ox oy then setIdx b (x + y * width) else b
  else b

/-- Integer range lo..=hi as a list (empty when hi < lo), modelling the
inclusive range loops of the source. -/
def intRange (lo hi : Int) : List Int :=
  (List.range (hi + 1 - lo).toNat).map (fun (i : Nat) => lo + (i : Int))

/-- The cells visited by post_process_vision: outer loop on x, inner loop
on y. -/
def cellList (minx maxx miny maxy : Int) : List (Int × Int) :=
  (intRange minx maxx).flatMap (fun x => (intRange miny maxy).map (fun y => (x, y)))

/-- post_process_vision of fov.rs: scan the rectangle minx..=maxx times
miny..=maxy and reveal hidden walls per pp_cell. -/
def post_process_vision (m : FovMap) (b : Buf)
    (width minx miny maxx maxy dx dy ox oy : Int) : Buf :=
  (cellList minx maxx miny maxy).foldl
    (fun c p => pp_cell m width dx dy ox oy c p.1 p.2) b

/-- field_of_view of fov.rs.  The out-of-bounds panic of assert_in_bounds
is modelled as none; every in-bounds call returns some list.  (The fov.rs
snapshot names the line iterator Bresenham; it is the LineBresenham
algorithm of bresenham.rs.) -/
def field_of_view (m : FovMap) (x y radius : Int) (include_walls : Bool) :
    Option (List TPoint) :=
  let radius_square := radius ^ 2
  if is_bounded m x y then none
  else if radius < 1 then some [(x, y)]
  else
    let width := m.width
    let height := m.height
    let minx := max (x - radius) 0
    let miny := max (y - radius) 0
    let maxx := min (x + radius) (width - 1)
    let maxy := min (y + radius) (height - 1)
    if maxx - minx = 0 ∨ maxy - miny = 0 then some []
    else
      let sub_width := maxx - minx + 1
      let sub_height := maxy - miny + 1
      let offset_x := minx
      let offset_y := miny
      let sub_origin := (x - offset_x, y - offset_y)
      let b1 := setIdx (fun _ => false) ((x - offset_x) + (y - offset_y) * sub_width)
      let b2 := (intRange minx maxx).foldl (fun b xi =>
        let ba := cast_ray m b sub_width sub_origin (xi - offset_x, miny - offset_y)
          radius_square offset_x offset_y
        cast_ray m ba sub_width sub_origin (xi - offset_x, maxy - offset_y)
          radius_square offset_x offset_y) b1
      let b3 := (intRange (miny + 1) (maxy - 1)).foldl (fun b yi =>
        let ba := cast_ray m b sub_width sub_origin (minx - offset_x, yi - offset_y)
          radius_square offset_x offset_y
        cast_ray m ba sub_width sub_origin (maxx - offset_x, yi - offset_y)
          radius_square offset_x offset_y) b2
      let b4 := post_process_vision m b3 sub_width (x - offset_x + 1)
        (y - offset_y + 1) (maxx - offset_x) (maxy - offset_y) (-1) (-1) offset_x offset_y
      let b5 := post_process_vision m b4 sub_width (minx - offset_x)
        (y - offset_y + 1) (x - offset_x - 1) (maxy - offset_y) 1 (-1) offset_x offset_y
      let b6 := post_process_vision m b5 sub_width (minx - offset_x)
        (miny - offset_y) (x - offset_x - 1) (y - offset_y - 1) 1 1 offset_x offset_y
      let b7 := post_process_vision m b6 sub_width (x - offset_x + 1)
        (miny - offset_y) (maxx - offset_x) (y - offset_y - 1) (-1) 1 offset_x offset_y
      let visibles := ((intRange 0 (sub_width * sub_height - 1)).filter
        (fun i => b7 i)).map
        (fun i => (i % sub_width + offset_x, i / sub_width + offset_y))
      if include_walls then some visibles
      else some (visibles.filter (fun p => !(m.is_opaque p.1 p.2)))

/-- A 2 x 2 all-transparent map. -/
def mapOpen22 : FovMap := ⟨2, 2, fun _ _ => false⟩

/-- A 2 x 2 map whose only opaque cell is (0, 0). -/
def mapOp00 : FovMap := ⟨2, 2, fun x y => decide (x = 0) && decide (y = 0)⟩

/-- A 1 x 5 all-transparent map: its clipped FOV window is degenerate. -/
def mapOpen15 : FovMap := ⟨1, 5, fun _ _ => false⟩

/-- A 3 x 3 map opaque exactly at (1, 1), (0, 1) and (1, 0). -/
def mapC5 : FovMap := ⟨3, 3, fun x y =>
  (decide (x = 1) && decide (y = 1)) || (decide (x = 0) && decide (y = 1)) ||
    (decide (x = 1) && decide (y = 0))⟩

/-- A window buffer in which only local cell (2, 1), index 5, is visible. -/
def bufC5 : Buf := fun i => decide (i = 5)

/-! ## A* pathfinding (path.rs) -/

/-- The walkability map consumed by pathfinding (the Map trait as used by
path.rs: dimensions plus per-cell walkability). -/
structure WalkMap where
  width : Int
  height : Int
  is_walkable : Int → Int → Bool

/-- The Graph capability of path.rs (dimensions, walkability, edge cost,
heuristic, neighbour enumeration).  f32 costs are modelled as Rat. -/
structure AGraph where
  width : Int
  height : Int
  is_walkable : Int → Int → Bool
  cost_between : TPoint → TPoint → Rat
  heuristic : TPoint → TPoint → Rat
  neighboors : TPoint → List TPoint

/-- point_to_index of path.rs (the usize cast is left abstract: indices
stay Int). -/
def point_to_index (p : TPoint) (width : Int) : Int := p.1 + p.2 * width

/-- index_to_point of path.rs; Rust % and / on the nonneg in-range indices
coincide with Int emod and ediv. -/
def index_to_point (index width : Int) : TPoint :=
  (index % width, index / width)

/-- struct State of path.rs: a priority cost plus the heap item (a cell
index). -/
structure State where
  cost : Rat
  item : Int

/-- The reversed Ord of State in path.rs: a <= b in the heap order exactly
when b.cost <= a.cost (incomparable costs cannot arise for Rat; Rust maps
them to Equal). -/
def state_le (a b : State) : Bool := decide (b.cost ≤ a.cost)

/-- List element read with the Rust-unreachable out-of-range default. -/
def getS (l : List State) (i : Nat) : State := l.getD i ⟨0, 0⟩

/-- Swap two positions of the heap array. -/
def swapS (l : List State) (i j : Nat) : List State :=
  (l.set i (getS l j)).set j (getS l i)

/-- The loop of sift_up of the Rust std BinaryHeap (the hole walk replayed
as swaps): move the element at pos towards the root while it is strictly
greater than its parent in the State order.  The position strictly
decreases, so any fuel above the starting position runs the loop to its
natural exit. -/
def sift_up_go (start : Nat) : Nat → List State → Nat → List State
  | 0, data, _ => data
  | fuel + 1, data, pos =>
    if pos > start then
      let parent := (pos - 1) / 2
      if state_le (getS data pos) (getS data parent) then data
      else sift_up_go start fuel (swapS data pos parent) parent
    else data

/-- sift_up of the Rust std BinaryHeap. -/
def sift_up (data : List State) (start pos : Nat) : List State :=
  sift_up_go start (pos + 1) data pos

/-- BinaryHeap::push of the Rust std: append then sift up from the last
position. -/
def heap_push (data : List State) (s : State) : List State :=
  sift_up (data ++ [s]) 0 data.length

/-- The hole-descent loop of sift_down_to_bottom of the Rust std
BinaryHeap: walk the larger-child path to the bottom (ties prefer the
right child), swapping along the way; returns the array and the final
hole position.  The position strictly increases below len, so any fuel
above len runs the loop to its natural exit. -/
def sift_down_go (len : Nat) : Nat → List State → Nat → List State × Nat
  | 0, data, pos => (data, pos)
  | fuel + 1, data, pos =>
    let child := 2 * pos + 1
    if child < len - 1 then
      let child2 := if state_le (getS data child) (getS data (child + 1))
        then child + 1 else child
      sift_down_go len fuel (swapS data pos child2) child2
    else if child = len - 1 then (swapS data pos child, child)
    else (data, pos)

/-- The descent phase of sift_down_to_bottom. -/
def sift_down_loop (data : List State) (pos len : Nat) : List State × Nat :=
  sift_down_go len (len + 1) data pos

/-- sift_down_to_bottom of the Rust std BinaryHeap. -/
def sift_down_to_bottom (data : List State) (pos : Nat) : List State :=
  let r := sift_down_loop data pos data.length
  sift_up r.1 pos r.2

/-- BinaryHeap::pop of the Rust std: remove the last element, and when the
heap stays nonempty swap it with the root and sift down to the bottom. -/
def heap_pop (data : List State) : Option (State × List State) :=
  if data.length = 0 then none
  else
    let last := getS data (data.length - 1)
    let rest := data.take (data.length - 1)
    if rest.length = 0 then some (last, [])
    else some (getS rest 0, sift_down_to_bottom (rest.set 0 last) 0)

/-- The mutable bookkeeping of astar_path of path.rs: the frontier heap
and the two flat arrays came_from and costs (modelled as functions on
indices). -/
structure AStar where
  frontier : List State
  came_from : Int → Option Int
  costs : Int → Option Rat

/-- The neighbour loop of the A* body of path.rs: skip out-of-bounds or
unwalkable neighbours, otherwise relax the edge, pushing improved cells
with priority new_cost + heuristic and recording their predecessor.  (The
Rust costs[current_index].unwrap() is getD 0; it never hits the default
because every popped item has its cost set.) -/
def expand (g : AGraph) (t : TPoint) (width height current_index : Int)
    (current : TPoint) : List TPoint → AStar → AStar
  | [], st => st
  | (x, y) :: rest, st =>
    if x < 0 ∨ y < 0 ∨ x ≥ width ∨ y ≥ height ∨ g.is_walkable x y = false then
      expand g t width height current_index current rest st
    else
      let next : TPoint := (x, y)
      let next_index := point_to_index next width
      let cost_so_far := (st.costs current_index).getD 0
      let new_cost := cost_so_far + g.cost_between current next
      let improved :=
        match st.costs next_index with
        | none => true
        | some old => decide (new_cost < old)
      if improved then
        let priority := new_cost + g.heuristic next t
        expand g t width height current_index current rest
          { frontier := heap_push st.frontier ⟨priority, next_index⟩,
            came_from := fun i => if i = next_index then some current_index
              else st.came_from i,
            costs := fun i => if i = next_index then some new_cost
              else st.costs i }
      else
        expand g t width height current_index current rest st

/-- The while-let pop loop of astar_path of path.rs.  Fuel bounds the
iterations: none models a run that needs more than fuel iterations; the
loop otherwise ends with the final came_from and to_cost (0 unless the
break on reaching the destination sets it). -/
def astar_loop (g : AGraph) (t : TPoint) (to_index width height : Int) :
    Nat → AStar → Option ((Int → Option Int) × Rat)
  | 0, _ => none
  | fuel + 1, st =>
    match heap_pop st.frontier with
    | none => some (st.came_from, 0)
    | some (s, frontier2) =>
      if s.item = to_index then some (st.came_from, s.cost)
      else
        let current := index_to_point s.item width
        astar_loop g t to_index width height fuel
          (expand g t width height s.item current (g.neighboors current)
            { st with frontier := frontier2 })

/-- The backward predecessor walk of reconstruct_path of path.rs.  The
accumulator is kept in reversed (origin-first) order, matching the final
rev of the source.  The outer none models a diverging walk; some none is
the Rust None return inside the loop. -/
def reconstruct_loop (cf : Int → Option Int) (target width : Int) :
    Nat → Int → List TPoint → Option (Option (List TPoint))
  | 0, _, _ => none
  | fuel + 1, current, acc =>
    if current = target then some (some (index_to_point target width :: acc))
    else
      match cf current with
      | some entry => reconstruct_loop cf target width fuel entry
          (index_to_point current width :: acc)
      | none => some none

/-- reconstruct_path of path.rs (the cost argument of the source only
sizes the vector allocation). -/
def reconstruct_path (f t : TPoint) (cf : Int → Option Int) (cost : Rat)
    (width : Int) (fuel : Nat) : Option (Option (List TPoint)) :=
  reconstruct_loop cf (point_to_index f width) width fuel
    (point_to_index t width) []

/-- astar_path of path.rs.  The fuel argument is a model artefact bounding
both loops: none = fuel exhausted (models divergence), some none = the
Rust None (no path), some (some path) = the Rust Some(path). -/
def astar_path (fuel : Nat) (g : AGraph) (f t : TPoint) :
    Option (Option (List TPoint)) :=
  let width := g.width
  let height := g.height
  let from_index := point_to_index f width
  let to_index := point_to_index t width
  let st : AStar :=
    { frontier := heap_push [] ⟨0, from_index⟩,
      came_from := fun _ => none,
      costs := fun i => if i = from_index then some 0 else none }
  match astar_loop g t to_index width height fuel st with
  | none => none
  | some (cf, cost) => reconstruct_path f t cf cost width fuel

/-- FourWayGridGraph of path.rs over a walkability map.  Rust % on i32 is
the truncated remainder, Int.tmod in Lean; 1. and 0.001 become the exact
rationals. -/
def FourWayGridGraph (m : WalkMap) : AGraph :=
  { width := m.width, height := m.height,
    is_walkable := m.is_walkable,
    cost_between := fun a b =>
      let basic : Rat := 1
      let nudge : Rat :=
        if ((a.1 + a.2).tmod 2 = 0 ∧ b.1 ≠ a.1) ∨
            ((a.1 + a.2).tmod 2 = 1 ∧ b.2 ≠ a.2) then 1 else 0
      basic + 0.001 * nudge,
    heuristic := fun a b =>
      (((a.1 - b.1).natAbs + (a.2 - b.2).natAbs : Nat) : Rat),
    neighboors := fun a =>
      [(a.1, a.2 + 1), (a.1, a.2 - 1), (a.1 - 1, a.2), (a.1 + 1, a.2)] }

/-- astar_path_fourwaygrid of path.rs. -/
def astar_path_fourwaygrid (fuel : Nat) (m : WalkMap) (f t : TPoint) :
    Option (Option (List TPoint)) :=
  astar_path fuel (FourWayGridGraph m) f t

/-- The wall cells of the astar_find_path test map of path.rs: the
rasterized segments (3,3)-(3,6) and (0,3)-(3,3). -/
def scenario_walls : List TPoint :=
  (LineBresenham.new (3, 3) (3, 6)).toList ++
    (LineBresenham.new (0, 3) (3, 3)).toList

/-- The 10 x 10 test map of astar_find_path of path.rs. -/
def scenario_map : WalkMap :=
  ⟨10, 10, fun x y => !(decide ((x, y) ∈ scenario_walls))⟩

/-- The astar_no_path test map of path.rs: scenario_map with the extra
wall segment (0,6)-(3,6). -/
def scenario_walls2 : List TPoint :=
  scenario_walls ++ (LineBresenham.new (0, 6) (3, 6)).toList

/-- The sealed 10 x 10 test map of astar_no_path of path.rs. -/
def scenario_map2 : WalkMap :=
  ⟨10, 10, fun x y => !(decide ((x, y) ∈ scenario_walls2))⟩

/-- The indices sitting in the frontier heap. -/
def heap_items (h : List State) : List Int := h.map (fun s => s.item)

/-- An in-bounds walkable neighbour step of graph g: b is enumerated among
the neighbours of a, lies inside the grid and is walkable. -/
def GStep (g : AGraph) (a b : TPoint) : Prop :=
  b ∈ g.neighboors a ∧ 0 ≤ b.1 ∧ b.1 < g.width ∧ 0 ≤ b.2 ∧ b.2 < g.height ∧
    g.is_walkable b.1 b.2 = true

/-- A sequence of cells joining f to t: starts at f, ends at t, and every
consecutive pair is a GStep, so every cell after the first is an in-bounds
walkable neighbour of its predecessor. -/
def Joins (g : AGraph) (f t : TPoint) (l : List TPoint) : Prop :=
  l.head? = some f ∧ l.getLast? = some t ∧ l.Chain' (GStep g)

/-- The invariant astar_loop maintains: predecessor entries are in-bounds
walkable neighbour steps whose chains bottom out at the origin, frontier
items have predecessors (except the origin), every costed cell is either
still in the frontier or has all its neighbour steps costed, a costed
destination is still in the frontier, and the origin is costed. -/
structure AInv (g : AGraph) (fi ti : Int) (st : AStar) : Prop where
  edge : ∀ j i, st.came_from j = some i →
    ∃ p, GStep g (index_to_point i g.width) p ∧ j = point_to_index p g.width
  chain : ∀ j i, st.came_from j = some i → i = fi ∨ st.came_from i ≠ none
  fitems : ∀ idx, idx ∈ heap_items st.frontier →
    idx = fi ∨ st.came_from idx ≠ none
  closed : ∀ i, st.costs i ≠ none → i ∈ heap_items st.frontier ∨
    (∀ p, GStep g (index_to_point i g.width) p →
      st.costs (point_to_index p g.width) ≠ none)
  tofront : st.costs ti ≠ none → ti ∈ heap_items st.frontier
  fromcost : st.costs fi ≠ none

/-- A 1 x 1 map whose single cell is unwalkable. -/
def blockedWalk11 : WalkMap := ⟨1, 1, fun _ _ => false⟩

/-- A 2 x 2 all-walkable map. -/
def openWalk22 : WalkMap := ⟨2, 2, fun _ _ => true⟩

theorem LineBresenham.next_some {b : LineBresenham} {p : TPoint}
    {b2 : LineBresenham} (h : b.next = some (p, b2)) :
    b2.x = b.x + 1 ∧ b2.x1 = b.x1 ∧ b.x ≤ b.x1 ∧ b2.y1 = b.y1 ∧
      b2.octant = b.octant ∧ b2.dx = b.dx ∧ b2.dy = b.dy := by
  unfold LineBresenham.next at h
  split at h
  · cases h
    refine ⟨rfl, rfl, by omega, rfl, rfl, rfl, rfl⟩
  · split at h
    · cases h
    · simp only at h
      split at h <;> cases h <;> exact ⟨rfl, rfl, by omega, rfl, rfl, rfl, rfl⟩

theorem LineBresenham.next_eq_end (b : LineBresenham) (h : b.x = b.x1) :
    b.next = some (b.octant.from_octant0 (b.x1, b.y1), { b with x := b.x + 1 }) := by
  unfold LineBresenham.next
  simp [h]

theorem LineBresenham.next_eq_none (b : LineBresenham) (h : b.x1 < b.x) :
    b.next = none := by
  unfold LineBresenham.next
  rw [if_neg (by omega), if_pos (by omega)]

theorem LineBresenham.next_step (b : LineBresenham) (h : b.x < b.x1) :
    ∃ b2, b.next = some (b.octant.from_octant0 (b.x, b.y), b2) ∧
      b2.x = b.x + 1 ∧ b2.x1 = b.x1 ∧ b2.y1 = b.y1 ∧ b2.octant = b.octant := by
  by_cases hd : b.diff ≥ 0
  · refine ⟨{ b with y := b.y + 1, diff := b.diff - b.dx + b.dy, x := b.x + 1 },
      ?_, rfl, rfl, rfl, rfl⟩
    unfold LineBresenham.next
    rw [if_neg (by omega), if_neg (by omega)]
    simp [hd]
  · refine ⟨{ b with diff := b.diff + b.dy, x := b.x + 1 },
      ?_, rfl, rfl, rfl, rfl⟩
    unfold LineBresenham.next
    rw [if_neg (by omega), if_neg (by omega)]
    simp [hd]

theorem LineBresenham.iterate_past (fuel : Nat) (b : LineBresenham)
    (h : b.x1 < b.x) : LineBresenham.iterate fuel b = [] := by
  cases fuel with
  | zero => rfl
  | succ fuel => simp [LineBresenham.iterate, LineBresenham.next_eq_none b h]

theorem LineBresenham.iterate_decomp :
    ∀ (fuel : Nat) (b : LineBresenham), b.x ≤ b.x1 →
      (b.x1 - b.x).toNat + 1 ≤ fuel →
      ∃ l0, LineBresenham.iterate fuel b
              = l0 ++ [b.octant.from_octant0 (b.x1, b.y1)] ∧
        l0.length = (b.x1 - b.x).toNat := by
  intro fuel
  induction fuel with
  | zero => intro b h hf; omega
  | succ fuel ih =>
    intro b h hf
    by_cases hx : b.x = b.x1
    · refine ⟨[], ?_, by rw [hx]; simp⟩
      simp only [LineBresenham.iterate, LineBresenham.next_eq_end b hx]
      rw [LineBresenham.iterate_past fuel _ (by simp; omega)]
      simp
    · obtain ⟨b2, hnext, hx2, hx12, hy12, ho2⟩ := b.next_step (by omega)
      obtain ⟨l0, hl, hlen⟩ := ih b2 (by omega) (by omega)
      refine ⟨b.octant.from_octant0 (b.x, b.y) :: l0, ?_, by simp [hlen]; omega⟩
      simp only [LineBresenham.iterate, hnext, hl, hx12, hy12, ho2,
        List.cons_append]

theorem LineBresenham.head_end (fuel : Nat) (b : LineBresenham)
    (h : b.x = b.x1) (hf : 1 ≤ fuel) :
    (LineBresenham.iterate fuel b).head?
      = some (b.octant.from_octant0 (b.x1, b.y1)) := by
  cases fuel with
  | zero => omega
  | succ fuel => simp [LineBresenham.iterate, LineBresenham.next_eq_end b h]

theorem LineBresenham.head_step (fuel : Nat) (b : LineBresenham)
    (h : b.x < b.x1) (hf : 1 ≤ fuel) :
    (LineBresenham.iterate fuel b).head?
      = some (b.octant.from_octant0 (b.x, b.y)) := by
  cases fuel with
  | zero => omega
  | succ fuel =>
    obtain ⟨b2, hnext, _⟩ := b.next_step h
    simp [LineBresenham.iterate, hnext]

theorem Octant.from_points_val_lt (s e : TPoint) :
    (Octant.from_points s e).val < 8 := by
  unfold Octant.from_points
  dsimp only
  split_ifs <;> simp

theorem Octant.roundtrip (o : Octant) (h : o.val < 8) (p : TPoint) :
    o.from_octant0 (o.to_octant0 p) = p := by
  obtain ⟨v⟩ := o
  interval_cases v <;> cases p <;> simp [Octant.to_octant0, Octant.from_octant0]

theorem Octant.canonical (s e : TPoint) :
    0 ≤ ((Octant.from_points s e).to_octant0 e).2
        - ((Octant.from_points s e).to_octant0 s).2 ∧
    ((Octant.from_points s e).to_octant0 e).2
        - ((Octant.from_points s e).to_octant0 s).2 ≤
      ((Octant.from_points s e).to_octant0 e).1
        - ((Octant.from_points s e).to_octant0 s).1 ∧
    ((Octant.from_points s e).to_octant0 e).1
        - ((Octant.from_points s e).to_octant0 s).1 =
      max ((e.1 - s.1).natAbs : Int) ((e.2 - s.2).natAbs : Int) := by
  unfold Octant.from_points
  dsimp only
  split_ifs with h1 h2 h3 <;>
    (simp only [Octant.to_octant0] at * ; omega)

theorem LineBresenham.toList_spec (s e : TPoint) :
    (LineBresenham.new s e).toList.length
        = max (e.1 - s.1).natAbs (e.2 - s.2).natAbs + 1 ∧
    (LineBresenham.new s e).toList.head? = some s ∧
    (LineBresenham.new s e).toList.getLast? = some e := by
  obtain ⟨hc1, hc2, hc3⟩ := Octant.canonical s e
  set o := Octant.from_points s e with ho
  set b := LineBresenham.new s e with hb
  have ex : b.x = (o.to_octant0 s).1 := rfl
  have ey : b.y = (o.to_octant0 s).2 := rfl
  have ex1 : b.x1 = (o.to_octant0 e).1 := rfl
  have ey1 : b.y1 = (o.to_octant0 e).2 := rfl
  have eo : b.octant = o := rfl
  have hxx1 : b.x ≤ b.x1 := by omega
  have htl : b.toList = LineBresenham.iterate (b.x1 + 2 - b.x).toNat b := rfl
  obtain ⟨l0, hl, hlen⟩ :=
    LineBresenham.iterate_decomp (b.x1 + 2 - b.x).toNat b hxx1 (by omega)
  have hend : b.octant.from_octant0 (b.x1, b.y1) = e := by
    rw [eo, ex1, ey1]
    exact Octant.roundtrip o (Octant.from_points_val_lt s e) e
  refine ⟨?_, ?_, ?_⟩
  · rw [htl, hl]
    simp [hlen]
    omega
  · by_cases hxeq : b.x = b.x1
    · rw [htl, LineBresenham.head_end _ b hxeq (by omega), hend]
      have hse : s = e := by
        have : e.1 = s.1 ∧ e.2 = s.2 := by omega
        obtain ⟨u1, u2⟩ := this
        exact Prod.ext u1.symm u2.symm
      rw [hse]
    · rw [htl, LineBresenham.head_step _ b (by omega) (by omega)]
      have : (b.x, b.y) = o.to_octant0 s := by rw [ex, ey]
      rw [this, eo]
      rw [Octant.roundtrip o (Octant.from_points_val_lt s e) s]
  · rw [htl, hl, List.getLast?_concat, hend]

/-- C4: for any two integer points, the line rasterizer yields exactly
max(|dx|, |dy|) + 1 points, the first being start, the last being end;
for start = end it yields the single point start. -/
theorem C4_line_length_endpoints (s e : TPoint) :
    (LineBresenham.new s e).toList.length
        = max (e.1 - s.1).natAbs (e.2 - s.2).natAbs + 1 ∧
    (LineBresenham.new s e).toList.head? = some s ∧
    (LineBresenham.new s e).toList.getLast? = some e ∧
    (LineBresenham.new s s).toList = [s] := by
  obtain ⟨h1, h2, h3⟩ := LineBresenham.toList_spec s e
  obtain ⟨g1, g2, g3⟩ := LineBresenham.toList_spec s s
  refine ⟨h1, h2, h3, ?_⟩
  have hlen : (LineBresenham.new s s).toList.length = 1 := by
    rw [g1]; simp
  match hval : (LineBresenham.new s s).toList with
  | [] => rw [hval] at hlen; simp at hlen
  | [a] => rw [hval] at g2; simp at g2; rw [g2]
  | a :: c :: l => rw [hval] at hlen; simp at hlen

/-- C10: for the octant computed by Octant::from_points, mapping any point
into the canonical octant 0 and back is the identity. -/
theorem C10_octant_transform_roundtrip (s e p : TPoint) :
    (Octant.from_points s e).from_octant0
        ((Octant.from_points s e).to_octant0 p) = p :=
  Octant.roundtrip (Octant.from_points s e) (Octant.from_points_val_lt s e) p

theorem fov_oob_none (m : FovMap) (x y radius : Int) (include_walls : Bool)
    (h : is_bounded m x y = true) :
    field_of_view m x y radius include_walls = none := by
  unfold field_of_view
  rw [h]
  simp

theorem fov_inb_some (m : FovMap) (x y radius : Int) (include_walls : Bool)
    (h : is_bounded m x y = false) :
    ∃ l, field_of_view m x y radius include_walls = some l := by
  unfold field_of_view
  rw [h]
  simp only [Bool.false_eq_true, if_false]
  split
  · exact ⟨_, rfl⟩
  · split
    · exact ⟨_, rfl⟩
    · split
      · exact ⟨_, rfl⟩
      · exact ⟨_, rfl⟩

/-- C9: for maps with positive dimensions, field_of_view fails (modelled
none, the panic of assert_in_bounds) exactly when the origin is out of
bounds, and returns a result for every in-bounds origin and any radius. -/
theorem C9_fov_panic_iff_oob (m : FovMap) (x y radius : Int)
    (include_walls : Bool) (hw : 0 < m.width) (hh : 0 < m.height) :
    field_of_view m x y radius include_walls = none ↔
      ¬(0 ≤ x ∧ x < m.width ∧ 0 ≤ y ∧ y < m.height) := by
  constructor
  · intro hnone hin
    have hb : is_bounded m x y = false := by
      unfold is_bounded
      simp
      omega
    obtain ⟨l, hl⟩ := fov_inb_some m x y radius include_walls hb
    rw [hl] at hnone
    cases hnone
  · intro hoob
    apply fov_oob_none
    unfold is_bounded
    simp
    omega

theorem C9_fov_panic_iff_oob_witness :
    field_of_view mapOpen22 5 0 1 true = none ∧
      field_of_view mapOpen22 1 1 1 true ≠ none :=
  ⟨(C9_fov_panic_iff_oob mapOpen22 5 0 1 true (by decide) (by decide)).mpr
      (by decide),
    fun h =>
      by cases (C9_fov_panic_iff_oob mapOpen22 1 1 1 true (by decide)
          (by decide)).mp h (by decide)⟩

/-- C6 counterexample: with radius 0 (the radius < 1 early return) and an
opaque origin, field_of_view with include_walls = false returns the opaque
origin cell, so the claim fails for arbitrary radius. -/
theorem C6_counterexample :
    field_of_view mapOp00 0 0 0 false = some [(0, 0)] ∧
      mapOp00.is_opaque 0 0 = true := by
  constructor
  · rfl
  · rfl

/-- C6 amended: for radius at least 1, no point returned by field_of_view
with include_walls = false is an opaque cell. -/
theorem C6_no_walls_filtered (m : FovMap) (x y radius : Int)
    (hr : 1 ≤ radius) :
    ∀ l, field_of_view m x y radius false = some l →
      ∀ p ∈ l, m.is_opaque p.1 p.2 = false := by
  unfold field_of_view
  split
  · intro l hl
    cases hl
  · split
    · exact fun l hl => absurd hr (by omega)
    · split
      · rename_i hfalse
        exact absurd hfalse Bool.false_ne_true
      · intro l hl
        dsimp only at hl
        split at hl
        · cases hl
          intro p hp
          simp at hp
        · cases hl
          intro p hp
          simp only [List.mem_filter] at hp
          simpa using hp.2

theorem C6_no_walls_filtered_witness : mapOp00.is_opaque 1 0 = false :=
  C6_no_walls_filtered mapOp00 0 0 1 (by decide) [(1, 0), (0, 1)]
    (by rfl) (1, 0) (by decide)

theorem setIdx_self (b : Buf) (i : Int) : setIdx b i i = true := by
  simp [setIdx]

theorem setIdx_mono (b : Buf) (i j : Int) (h : b j = true) :
    setIdx b i j = true := by
  unfold setIdx
  split
  · rfl
  · exact h

theorem ray_loop_mono (m : FovMap) (width : Int) (origin : TPoint)
    (rs ox oy : Int) :
    ∀ (pts : List TPoint) (b : Buf) (j : Int), b j = true →
      ray_loop m width origin rs ox oy pts b j = true := by
  intro pts
  induction pts with
  | nil => intro b j h; exact h
  | cons p rest ih =>
    intro b j h
    obtain ⟨px, py⟩ := p
    unfold ray_loop
    dsimp only
    have hb2 : (if (px - origin.1) ^ 2 + (py - origin.2) ^ 2 ≤ rs ∨ rs = 0
        then setIdx b (px + py * width) else b) j = true := by
      split
      · exact setIdx_mono b _ j h
      · exact h
    split
    · exact hb2
    · exact ih _ j hb2

theorem cast_ray_mono (m : FovMap) (b : Buf) (width : Int)
    (origin destination : TPoint) (rs ox oy j : Int) (h : b j = true) :
    cast_ray m b width origin destination rs ox oy j = true :=
  ray_loop_mono m width origin rs ox oy _ b j h

theorem pp_cell_mono (m : FovMap) (width dx dy ox oy : Int) (b : Buf)
    (x y j : Int) (h : b j = true) :
    pp_cell m width dx dy ox oy b x y j = true := by
  unfold pp_cell
  split
  · split
    · exact setIdx_mono b _ j h
    · exact h
  · exact h

theorem foldl_buf_mono {α : Type} (f : Buf → α → Buf)
    (hf : ∀ b a j, b j = true → f b a j = true) :
    ∀ (l : List α) (b : Buf) (j : Int), b j = true →
      (l.foldl f b) j = true := by
  intro l
  induction l with
  | nil => intro b j h; exact h
  | cons a l ih => intro b j h; exact ih (f b a) j (hf b a j h)

theorem post_process_vision_mono (m : FovMap) (b : Buf)
    (width minx miny maxx maxy dx dy ox oy j : Int) (h : b j = true) :
    post_process_vision m b width minx miny maxx maxy dx dy ox oy j = true :=
  foldl_buf_mono _ (fun b p j h => pp_cell_mono m width dx dy ox oy b p.1 p.2 j h)
    _ b j h

theorem mem_intRange {i lo hi : Int} : i ∈ intRange lo hi ↔ lo ≤ i ∧ i ≤ hi := by
  unfold intRange
  rw [List.mem_map]
  constructor
  · rintro ⟨a, ha, rfl⟩
    rw [List.mem_range] at ha
    omega
  · rintro ⟨h1, h2⟩
    refine ⟨(i - lo).toNat, ?_, by omega⟩
    rw [List.mem_range]
    omega

/-- C1 counterexample: (a) on a positive-dimension 1 x 5 map the clipped
window degenerates and field_of_view returns the empty list, missing the
in-bounds origin (0, 2) despite radius 1; (b) with an opaque origin and
include_walls = false the origin is filtered out of the result. -/
theorem C1_counterexample :
    (field_of_view mapOpen15 0 2 1 true = some [] ∧
      ((0, 2) : TPoint) ∉ ([] : List TPoint)) ∧
    (field_of_view mapOp00 0 0 1 false = some [(1, 0), (0, 1)] ∧
      ((0, 0) : TPoint) ∉ [((1, 0) : TPoint), (0, 1)]) :=
  ⟨⟨rfl, by decide⟩, ⟨rfl, by decide⟩⟩

theorem mem_visibles_of_buf (b : Buf) (sw sh ox oy u v : Int)
    (hu : 0 ≤ u - ox) (hu2 : u - ox ≤ sw - 1) (hv : 0 ≤ v - oy)
    (hv2 : v - oy ≤ sh - 1)
    (hb : b ((u - ox) + (v - oy) * sw) = true) :
    (u, v) ∈ ((intRange 0 (sw * sh - 1)).filter (fun i => b i)).map
      (fun i => (i % sw + ox, i / sw + oy)) := by
  have hsw : 1 ≤ sw := by omega
  rw [List.mem_map]
  refine ⟨(u - ox) + (v - oy) * sw, ?_, ?_⟩
  · rw [List.mem_filter]
    refine ⟨?_, hb⟩
    rw [mem_intRange]
    have hm1 : 0 ≤ (v - oy) * sw := mul_nonneg hv (by omega)
    have hm2 : (v - oy) * sw ≤ (sh - 1) * sw :=
      mul_le_mul_of_nonneg_right (by omega) (by omega)
    have hm3 : (sh - 1) * sw + sw = sw * sh := by ring
    omega
  · have hmod : ((u - ox) + (v - oy) * sw) % sw = u - ox := by
      rw [Int.add_mul_emod_self]
      exact Int.emod_eq_of_lt (by omega) (by omega)
    have hdiv : ((u - ox) + (v - oy) * sw) / sw = v - oy := by
      rw [Int.add_mul_ediv_right _ _ (by omega : sw ≠ 0),
        Int.ediv_eq_zero_of_lt (by omega) (by omega)]
      omega
    rw [hmod, hdiv, show u - ox + ox = u from by omega,
      show v - oy + oy = v from by omega]

/-- C1 amended: when both map dimensions are at least 2 (so the clipped
window cannot degenerate), the origin is in bounds, radius is at least 1,
and either include_walls is true or the origin cell is transparent, the
FOV result contains the origin. -/
theorem C1_fov_contains_origin (m : FovMap) (x y radius : Int)
    (include_walls : Bool) (hw : 2 ≤ m.width) (hh : 2 ≤ m.height)
    (hx1 : 0 ≤ x) (hx2 : x < m.width) (hy1 : 0 ≤ y) (hy2 : y < m.height)
    (hr : 1 ≤ radius)
    (hwall : include_walls = true ∨ m.is_opaque x y = false) :
    ∃ l, field_of_view m x y radius include_walls = some l ∧ (x, y) ∈ l := by
  unfold field_of_view
  split
  · rename_i hb
    exfalso
    unfold is_bounded at hb
    simp at hb
    omega
  · split
    · rename_i hrad
      exact absurd hr (by omega)
    · dsimp only
      split
      · rename_i hdeg
        exfalso
        omega
      · rename_i hdeg
        have hmem := mem_visibles_of_buf
          (post_process_vision m
            (post_process_vision m
              (post_process_vision m
                (post_process_vision m
                  ((intRange (max (y - radius) 0 + 1)
                      (min (y + radius) (m.height - 1) - 1)).foldl
                    (fun b yi =>
                      cast_ray m
                        (cast_ray m b
                          (min (x + radius) (m.width - 1) - max (x - radius) 0 + 1)
                          (x - max (x - radius) 0, y - max (y - radius) 0)
                          (max (x - radius) 0 - max (x - radius) 0,
                            yi - max (y - radius) 0)
                          (radius ^ 2) (max (x - radius) 0) (max (y - radius) 0))
                        (min (x + radius) (m.width - 1) - max (x - radius) 0 + 1)
                        (x - max (x - radius) 0, y - max (y - radius) 0)
                        (min (x + radius) (m.width - 1) - max (x - radius) 0,
                          yi - max (y - radius) 0)
                        (radius ^ 2) (max (x - radius) 0) (max (y - radius) 0))
                    ((intRange (max (x - radius) 0)
                        (min (x + radius) (m.width - 1))).foldl
                      (fun b xi =>
                        cast_ray m
                          (cast_ray m b
                            (min (x + radius) (m.width - 1) - max (x - radius) 0 + 1)
                            (x - max (x - radius) 0, y - max (y - radius) 0)
                            (xi - max (x - radius) 0,
                              max (y - radius) 0 - max (y - radius) 0)
                            (radius ^ 2) (max (x - radius) 0) (max (y - radius) 0))
                          (min (x + radius) (m.width - 1) - max (x - radius) 0 + 1)
                          (x - max (x - radius) 0, y - max (y - radius) 0)
                          (xi - max (x - radius) 0,
                            min (y + radius) (m.height - 1) - max (y - radius) 0)
                          (radius ^ 2) (max (x - radius) 0) (max (y - radius) 0))
                      (setIdx (fun _ => false)
                        (x - max (x - radius) 0
                          + (y - max (y - radius) 0)
                            * (min (x + radius) (m.width - 1) - max (x - radius) 0 + 1)))))
                  (min (x + radius) (m.width - 1) - max (x - radius) 0 + 1)
                  (x - max (x - radius) 0 + 1) (y - max (y - radius) 0 + 1)
                  (min (x + radius) (m.width - 1) - max (x - radius) 0)
                  (min (y + radius) (m.height - 1) - max (y - radius) 0)
                  (-1) (-1) (max (x - radius) 0) (max (y - radius) 0))
                (min (x + radius) (m.width - 1) - max (x - radius) 0 + 1)
                (max (x - radius) 0 - max (x - radius) 0)
                (y - max (y - radius) 0 + 1) (x - max (x - radius) 0 - 1)
                (min (y + radius) (m.height - 1) - max (y - radius) 0)
                1 (-1) (max (x - radius) 0) (max (y - radius) 0))
              (min (x + radius) (m.width - 1) - max (x - radius) 0 + 1)
              (max (x - radius) 0 - max (x - radius) 0)
              (max (y - radius) 0 - max (y - radius) 0)
              (x - max (x - radius) 0 - 1) (y - max (y - radius) 0 - 1)
              1 1 (max (x - radius) 0) (max (y - radius) 0))
            (min (x + radius) (m.width - 1) - max (x - radius) 0 + 1)
            (x - max (x - radius) 0 + 1) (max (y - radius) 0 - max (y - radius) 0)
            (min (x + radius) (m.width - 1) - max (x - radius) 0)
            (y - max (y - radius) 0 - 1)
            (-1) 1 (max (x - radius) 0) (max (y - radius) 0))
          (min (x + radius) (m.width - 1) - max (x - radius) 0 + 1)
          (min (y + radius) (m.height - 1) - max (y - radius) 0 + 1)
          (max (x - radius) 0) (max (y - radius) 0) x y
          (by omega) (by omega) (by omega) (by omega)
          (by
            apply post_process_vision_mono
            apply post_process_vision_mono
            apply post_process_vision_mono
            apply post_process_vision_mono
            apply foldl_buf_mono
            · intro b a j h
              exact cast_ray_mono _ _ _ _ _ _ _ _ _
                (cast_ray_mono _ _ _ _ _ _ _ _ _ h)
            apply foldl_buf_mono
            · intro b a j h
              exact cast_ray_mono _ _ _ _ _ _ _ _ _
                (cast_ray_mono _ _ _ _ _ _ _ _ _ h)
            exact setIdx_self _ _)
        split
        · exact ⟨_, rfl, hmem⟩
        · rename_i hiw
          refine ⟨_, rfl, ?_⟩
          rw [List.mem_filter]
          refine ⟨hmem, ?_⟩
          rcases hwall with hiw2 | hop
          · exact absurd hiw2 hiw
          · simp [hop]

theorem C1_fov_contains_origin_witness :
    ∃ l, field_of_view mapOpen22 0 0 1 true = some l ∧ ((0, 0) : TPoint) ∈ l :=
  C1_fov_contains_origin mapOpen22 0 0 1 true (by decide) (by decide)
    (by decide) (by decide) (by decide) (by decide) (by decide) (Or.inl rfl)

theorem index_inj {width u v u2 v2 : Int} (hw : 0 < width)
    (hu : 0 ≤ u) (hu2 : u < width) (hv : 0 ≤ v)
    (hu3 : 0 ≤ u2) (hu4 : u2 < width) (hv2 : 0 ≤ v2)
    (h : u + v * width = u2 + v2 * width) : u = u2 ∧ v = v2 := by
  have h1 : (u + v * width) % width = u := by
    rw [Int.add_mul_emod_self]
    exact Int.emod_eq_of_lt hu hu2
  have h2 : (u2 + v2 * width) % width = u2 := by
    rw [Int.add_mul_emod_self]
    exact Int.emod_eq_of_lt hu3 hu4
  have hu_eq : u = u2 := by rw [← h1, h, h2]
  refine ⟨hu_eq, ?_⟩
  have h3 : v * width = v2 * width := by
    rw [hu_eq] at h
    omega
  exact mul_right_cancel₀ (by omega) h3

theorem mem_cellList {p : Int × Int} {minx maxx miny maxy : Int} :
    p ∈ cellList minx maxx miny maxy ↔
      minx ≤ p.1 ∧ p.1 ≤ maxx ∧ miny ≤ p.2 ∧ p.2 ≤ maxy := by
  obtain ⟨pu, pv⟩ := p
  unfold cellList
  rw [List.mem_flatMap]
  constructor
  · rintro ⟨a, ha, hmem⟩
    rw [List.mem_map] at hmem
    obtain ⟨yv, hyv, heq⟩ := hmem
    cases heq
    rw [mem_intRange] at ha hyv
    exact ⟨ha.1, ha.2, hyv.1, hyv.2⟩
  · rintro ⟨h1, h2, h3, h4⟩
    refine ⟨pu, mem_intRange.mpr ⟨h1, h2⟩, ?_⟩
    rw [List.mem_map]
    exact ⟨pv, mem_intRange.mpr ⟨h3, h4⟩, rfl⟩

theorem pp_cell_eq (m : FovMap) (width dx dy ox oy : Int) (c : Buf)
    (u v i : Int) :
    pp_cell m width dx dy ox oy c u v i
      = (c i || (decide (i = u + v * width) &&
          m.is_opaque (u + ox) (v + oy) && !(c (u + v * width)) &&
          pp_cond m c width u v dx dy ox oy)) := by
  by_cases hidx : i = u + v * width
  · rw [hidx]
    unfold pp_cell setIdx
    cases hop : m.is_opaque (u + ox) (v + oy) <;>
      cases hcb : c (u + v * width) <;>
        cases hcond : pp_cond m c width u v dx dy ox oy <;>
          simp [hop, hcb, hcond]
  · unfold pp_cell setIdx
    split
    · split
      · simp [hidx]
      · simp [hidx]
    · simp [hidx]

theorem pp_cond_stable (m : FovMap) (width dx dy ox oy : Int) (b c : Buf)
    (S : Int → Bool) (hw : 0 < width)
    (hS : ∀ i, S i = true → ∃ u2 v2, 0 ≤ u2 ∧ u2 < width ∧ 0 ≤ v2 ∧
      i = u2 + v2 * width ∧ m.is_opaque (u2 + ox) (v2 + oy) = true)
    (hc : ∀ i, c i = (b i || S i))
    (u v : Int) (hu : 0 ≤ u) (hu2 : u < width) (hv : 0 ≤ v)
    (hud : 0 ≤ u + dx) (hud2 : u + dx < width) (hvd : 0 ≤ v + dy) :
    pp_cond m c width u v dx dy ox oy = pp_cond m b width u v dx dy ox oy := by
  have key : ∀ (nu nv : Int), 0 ≤ nu → nu < width → 0 ≤ nv →
      m.is_opaque (nu + ox) (nv + oy) = false →
      c (nu + nv * width) = b (nu + nv * width) := by
    intro nu nv h1 h2 h3 hop
    rw [hc]
    cases hSn : S (nu + nv * width) with
    | false => simp
    | true =>
      obtain ⟨u2, v2, g1, g2, g3, g4, g5⟩ := hS _ hSn
      obtain ⟨e1, e2⟩ := index_inj hw g1 g2 g3 h1 h2 h3 g4.symm
      rw [e1, e2] at g5
      rw [g5] at hop
      cases hop
  have r1 : (!(m.is_opaque (u + dx + ox) (v + oy)) && c ((u + dx) + v * width))
      = (!(m.is_opaque (u + dx + ox) (v + oy)) && b ((u + dx) + v * width)) := by
    cases hop : m.is_opaque (u + dx + ox) (v + oy) with
    | true => simp
    | false => rw [key (u + dx) v hud hud2 hv hop]
  have r2 : (!(m.is_opaque (u + ox) (v + dy + oy)) && c (u + (v + dy) * width))
      = (!(m.is_opaque (u + ox) (v + dy + oy)) && b (u + (v + dy) * width)) := by
    cases hop : m.is_opaque (u + ox) (v + dy + oy) with
    | true => simp
    | false => rw [key u (v + dy) hu hu2 hvd hop]
  unfold pp_cond
  rw [r1, r2]

theorem pp_fold_spec (m : FovMap) (width dx dy ox oy : Int) (b : Buf)
    (hw : 0 < width) :
    ∀ (L : List (Int × Int)) (c : Buf) (S : Int → Bool),
      (∀ p ∈ L, 0 ≤ p.1 ∧ p.1 < width ∧ 0 ≤ p.2 ∧
        0 ≤ p.1 + dx ∧ p.1 + dx < width ∧ 0 ≤ p.2 + dy) →
      (∀ i, S i = true → ∃ u2 v2, 0 ≤ u2 ∧ u2 < width ∧ 0 ≤ v2 ∧
        i = u2 + v2 * width ∧ m.is_opaque (u2 + ox) (v2 + oy) = true) →
      (∀ i, c i = (b i || S i)) →
      ∀ i, (L.foldl (fun c2 p => pp_cell m width dx dy ox oy c2 p.1 p.2) c) i
        = (b i || S i ||
            L.any (fun p => decide (i = p.1 + p.2 * width) &&
              m.is_opaque (p.1 + ox) (p.2 + oy) &&
              pp_cond m b width p.1 p.2 dx dy ox oy)) := by
  intro L
  induction L with
  | nil =>
    intro c S hL hS hc i
    simp [hc i]
  | cons p rest ih =>
    obtain ⟨u, v⟩ := p
    intro c S hL hS hc i
    obtain ⟨pu1, pu2, pv1, pd1, pd2, pd3⟩ := hL (u, v) (List.mem_cons_self _ _)
    have hstab := pp_cond_stable m width dx dy ox oy b c S hw hS hc
      u v pu1 pu2 pv1 pd1 pd2 pd3
    have hc2 : ∀ i2, pp_cell m width dx dy ox oy c u v i2
        = (b i2 || (S i2 || (decide (i2 = u + v * width) &&
            m.is_opaque (u + ox) (v + oy) &&
            pp_cond m b width u v dx dy ox oy))) := by
      intro i2
      rw [pp_cell_eq, hc i2, hc (u + v * width), hstab]
      by_cases hidx : i2 = u + v * width
      · subst hidx
        cases b (u + v * width) <;> cases S (u + v * width) <;>
          cases m.is_opaque (u + ox) (v + oy) <;>
            cases pp_cond m b width u v dx dy ox oy <;> simp
      · simp [hidx]
    have hgood2 : ∀ i2, (S i2 || (decide (i2 = u + v * width) &&
        m.is_opaque (u + ox) (v + oy) &&
        pp_cond m b width u v dx dy ox oy)) = true →
        ∃ u2 v2, 0 ≤ u2 ∧ u2 < width ∧ 0 ≤ v2 ∧
          i2 = u2 + v2 * width ∧ m.is_opaque (u2 + ox) (v2 + oy) = true := by
      intro i2 h2
      rw [Bool.or_eq_true] at h2
      rcases h2 with h2 | h2
      · exact hS i2 h2
      · rw [Bool.and_eq_true, Bool.and_eq_true] at h2
        obtain ⟨⟨hd, hop⟩, _⟩ := h2
        exact ⟨u, v, pu1, pu2, pv1, of_decide_eq_true hd, hop⟩
    have hrest := ih (pp_cell m width dx dy ox oy c u v)
      (fun i2 => S i2 || (decide (i2 = u + v * width) &&
        m.is_opaque (u + ox) (v + oy) &&
        pp_cond m b width u v dx dy ox oy))
      (fun q hq => hL q (List.mem_cons_of_mem _ hq)) hgood2 hc2
    rw [List.foldl_cons, hrest i, List.any_cons]
    simp only [Bool.or_assoc]

/-- C5 amended: one post_process_vision pass, under the window-geometry
conditions satisfied by each of the four quadrant calls of field_of_view,
reveals exactly the opaque, not-yet-visible cells of its rectangle whose
toward-origin orthogonal neighbour (x + dx or y + dy, the direction fixed
per quadrant and pointing toward the origin) is transparent and visible in
the pre-pass buffer; every other cell of the window keeps its value. -/
theorem C5_post_process_reveal (m : FovMap) (b : Buf)
    (width minx miny maxx maxy dx dy ox oy : Int)
    (hw : 0 < width) (h1 : 0 ≤ minx) (h2 : maxx < width) (h3 : 0 ≤ miny)
    (h4 : 0 ≤ minx + dx) (h5 : maxx + dx < width) (h6 : 0 ≤ miny + dy) :
    (∀ u v, minx ≤ u → u ≤ maxx → miny ≤ v → v ≤ maxy →
      post_process_vision m b width minx miny maxx maxy dx dy ox oy
          (u + v * width)
        = (b (u + v * width) ||
            (m.is_opaque (u + ox) (v + oy) && !(b (u + v * width)) &&
              pp_cond m b width u v dx dy ox oy))) ∧
    (∀ u v, 0 ≤ u → u < width → 0 ≤ v →
      ¬(minx ≤ u ∧ u ≤ maxx ∧ miny ≤ v ∧ v ≤ maxy) →
      post_process_vision m b width minx miny maxx maxy dx dy ox oy
          (u + v * width)
        = b (u + v * width)) := by
  have hfold := pp_fold_spec m width dx dy ox oy b hw
    (cellList minx maxx miny maxy) b (fun _ => false)
    (fun p hp => by
      rw [mem_cellList] at hp
      refine ⟨by omega, by omega, by omega, by omega, by omega, by omega⟩)
    (fun i hi => by simp at hi)
    (fun i => by simp)
  constructor
  · intro u v hu1 hu2 hv1 hv2
    unfold post_process_vision
    rw [hfold]
    cases hb : b (u + v * width) with
    | true => simp
    | false =>
      simp only [Bool.false_or, Bool.not_false, Bool.and_true]
      cases hoc : (m.is_opaque (u + ox) (v + oy) &&
          pp_cond m b width u v dx dy ox oy) with
      | true =>
        rw [Bool.and_eq_true] at hoc
        have hany : (cellList minx maxx miny maxy).any
            (fun p => decide (u + v * width = p.1 + p.2 * width) &&
              m.is_opaque (p.1 + ox) (p.2 + oy) &&
              pp_cond m b width p.1 p.2 dx dy ox oy) = true := by
          apply List.any_eq_true.mpr
          refine ⟨(u, v), mem_cellList.mpr ⟨hu1, hu2, hv1, hv2⟩, ?_⟩
          simp [hoc.1, hoc.2]
        rw [hany]
        try simp [hoc.1, hoc.2]
      | false =>
        have hany : (cellList minx maxx miny maxy).any
            (fun p => decide (u + v * width = p.1 + p.2 * width) &&
              m.is_opaque (p.1 + ox) (p.2 + oy) &&
              pp_cond m b width p.1 p.2 dx dy ox oy) = false := by
          cases hany2 : (cellList minx maxx miny maxy).any
              (fun p => decide (u + v * width = p.1 + p.2 * width) &&
                m.is_opaque (p.1 + ox) (p.2 + oy) &&
                pp_cond m b width p.1 p.2 dx dy ox oy) with
          | false => rfl
          | true =>
            exfalso
            obtain ⟨p, hp, hfp⟩ := List.any_eq_true.mp hany2
            rw [mem_cellList] at hp
            simp only [Bool.and_eq_true, decide_eq_true_eq] at hfp
            obtain ⟨⟨hidx, hop⟩, hcond⟩ := hfp
            obtain ⟨e1, e2⟩ := index_inj hw (by omega) (by omega) (by omega)
              (by omega) (by omega) (by omega) hidx
            rw [← e1, ← e2] at hop hcond
            rw [Bool.and_eq_false_iff] at hoc
            rcases hoc with hoc | hoc
            · rw [hop] at hoc; cases hoc
            · rw [hcond] at hoc; cases hoc
        rw [hany]
        try simp [hoc]
  · intro u v hu1 hu2 hv1 hnr
    unfold post_process_vision
    rw [hfold]
    have hany : (cellList minx maxx miny maxy).any
        (fun p => decide (u + v * width = p.1 + p.2 * width) &&
          m.is_opaque (p.1 + ox) (p.2 + oy) &&
          pp_cond m b width p.1 p.2 dx dy ox oy) = false := by
      cases hany2 : (cellList minx maxx miny maxy).any
          (fun p => decide (u + v * width = p.1 + p.2 * width) &&
            m.is_opaque (p.1 + ox) (p.2 + oy) &&
            pp_cond m b width p.1 p.2 dx dy ox oy) with
      | false => rfl
      | true =>
        exfalso
        obtain ⟨p, hp, hfp⟩ := List.any_eq_true.mp hany2
        rw [mem_cellList] at hp
        simp only [Bool.and_eq_true, decide_eq_true_eq] at hfp
        obtain ⟨⟨hidx, hop⟩, hcond⟩ := hfp
        obtain ⟨e1, e2⟩ := index_inj hw hu1 hu2 hv1
          (by omega) (by omega) (by omega) hidx
        exact hnr ⟨by omega, by omega, by omega, by omega⟩
    rw [hany]
    try simp

/-- C5 counterexample: in an SE-quadrant pass (the post_process_vision call
shape of field_of_view with origin at local (0, 0), dx = dy = -1), the
opaque unseen cell (1, 1) has its away-from-origin orthogonal neighbour
(2, 1) transparent and visible, yet the pass does not reveal it: the code
inspects the neighbours one step closer to the origin, not further. -/
theorem C5_counterexample :
    post_process_vision mapC5 bufC5 3 1 1 2 2 (-1) (-1) 0 0 (1 + 1 * 3)
        = false ∧
    mapC5.is_opaque 1 1 = true ∧ bufC5 (1 + 1 * 3) = false ∧
    mapC5.is_opaque 2 1 = false ∧ bufC5 (2 + 1 * 3) = true := by
  refine ⟨?_, rfl, rfl, rfl, rfl⟩
  rfl

theorem C5_post_process_reveal_witness :
    post_process_vision mapC5 bufC5 3 1 1 2 2 (-1) (-1) 0 0 (1 + 1 * 3)
      = (bufC5 (1 + 1 * 3) ||
          (mapC5.is_opaque (1 + 0) (1 + 0) && !(bufC5 (1 + 1 * 3)) &&
            pp_cond mapC5 bufC5 3 1 1 (-1) (-1) 0 0)) :=
  (C5_post_process_reveal mapC5 bufC5 3 1 1 2 2 (-1) (-1) 0 0 (by decide)
      (by decide) (by decide) (by decide) (by decide) (by decide)
      (by decide)).1 1 1 (by decide) (by decide) (by decide) (by decide)

/-- C3: on the 10 x 10 scenario map with the rasterized wall segments
(3,3)-(3,6) and (0,3)-(3,3) removed from the walkable set, A* over the
four-way grid graph from (0,4) to (5,4) returns exactly the reference
path of the astar_find_path test (fuel 200 amply covers the run, which
ends by reaching the destination). -/
theorem C3_scenario_path :
    astar_path_fourwaygrid 200 scenario_map (0, 4) (5, 4)
      = some (some [(0, 4), (0, 5), (1, 5), (1, 6), (2, 6), (2, 7), (3, 7),
          (4, 7), (5, 7), (5, 6), (5, 5), (5, 4)]) := by
  with_unfolding_all rfl

theorem length_swapS (l : List State) (i j : Nat) :
    (swapS l i j).length = l.length := by
  simp [swapS]

theorem mem_swapS {l : List State} {i j : Nat} (hi : i < l.length)
    (hj : j < l.length) (x : State) : x ∈ swapS l i j ↔ x ∈ l := by
  unfold swapS getS
  rw [List.getD_eq_getElem l ⟨0, 0⟩ hj, List.getD_eq_getElem l ⟨0, 0⟩ hi]
  constructor
  · intro hx
    rcases List.mem_or_eq_of_mem_set hx with hx | hx
    · rcases List.mem_or_eq_of_mem_set hx with hx | hx
      · exact hx
      · rw [hx]; exact List.getElem_mem hj
    · rw [hx]; exact List.getElem_mem hi
  · intro hx
    rw [List.mem_iff_getElem] at hx
    obtain ⟨k, hk, hkx⟩ := hx
    rw [List.mem_iff_getElem]
    by_cases hkj : k = j
    · refine ⟨i, by simp; omega, ?_⟩
      rw [List.getElem_set]
      by_cases hji : j = i
      · rw [if_pos hji]
        have e : l[i] = l[k] := by congr 1; omega
        rw [e, hkx]
      · rw [if_neg hji, List.getElem_set, if_pos rfl]
        have e : l[j] = l[k] := by congr 1; omega
        rw [e, hkx]
    · by_cases hki : k = i
      · refine ⟨j, by simp; omega, ?_⟩
        rw [List.getElem_set, if_pos rfl]
        have e : l[i] = l[k] := by congr 1; omega
        rw [e, hkx]
      · refine ⟨k, by simp; omega, ?_⟩
        rw [List.getElem_set, if_neg (by omega), List.getElem_set,
          if_neg (by omega)]
        exact hkx

theorem sift_up_go_length (start : Nat) :
    ∀ (fuel : Nat) (data : List State) (pos : Nat),
      (sift_up_go start fuel data pos).length = data.length := by
  intro fuel
  induction fuel with
  | zero => intro data pos; rfl
  | succ fuel ih =>
    intro data pos
    unfold sift_up_go
    dsimp only
    split
    · split
      · rfl
      · rw [ih, length_swapS]
    · rfl

theorem sift_up_go_mem (start : Nat) :
    ∀ (fuel : Nat) (data : List State) (pos : Nat), pos < data.length →
      ∀ x, x ∈ sift_up_go start fuel data pos ↔ x ∈ data := by
  intro fuel
  induction fuel with
  | zero => intro data pos hp x; rfl
  | succ fuel ih =>
    intro data pos hp x
    unfold sift_up_go
    dsimp only
    split
    · split
      · rfl
      · rename_i hgt hle
        rw [ih (swapS data pos ((pos - 1) / 2)) ((pos - 1) / 2)
            (by rw [length_swapS]; omega)]
        exact mem_swapS hp (by omega) x
    · rfl

theorem sift_up_mem (data : List State) (start pos : Nat)
    (hp : pos < data.length) (x : State) :
    x ∈ sift_up data start pos ↔ x ∈ data :=
  sift_up_go_mem start (pos + 1) data pos hp x

theorem heap_push_mem (data : List State) (s x : State) :
    x ∈ heap_push data s ↔ x ∈ data ∨ x = s := by
  unfold heap_push
  rw [sift_up_mem _ 0 data.length (by simp)]
  simp

theorem sift_down_go_spec (len : Nat) :
    ∀ (fuel : Nat) (data : List State) (pos : Nat), pos < len →
      len = data.length →
      (sift_down_go len fuel data pos).1.length = data.length ∧
      (sift_down_go len fuel data pos).2 < len ∧
      ∀ x, x ∈ (sift_down_go len fuel data pos).1 ↔ x ∈ data := by
  intro fuel
  induction fuel with
  | zero => intro data pos hp hlen; exact ⟨rfl, hp, fun x => Iff.rfl⟩
  | succ fuel ih =>
    intro data pos hp hlen
    unfold sift_down_go
    dsimp only
    split
    · rename_i hchild
      set c2 := (if state_le (getS data (2 * pos + 1))
          (getS data (2 * pos + 1 + 1)) then 2 * pos + 1 + 1
          else 2 * pos + 1) with hc2def
      have hc2 : c2 < len := by
        rw [hc2def]
        split <;> omega
      obtain ⟨g1, g2, g3⟩ := ih (swapS data pos c2) c2 hc2
        (by rw [length_swapS]; exact hlen)
      refine ⟨by rw [g1, length_swapS], g2, fun x => ?_⟩
      rw [g3 x]
      exact mem_swapS (by omega) (by omega) x
    · split
      · rename_i h1 h2
        refine ⟨length_swapS _ _ _, by omega, fun x => ?_⟩
        exact mem_swapS (by omega) (by omega) x
      · exact ⟨rfl, hp, fun x => Iff.rfl⟩

theorem sift_down_to_bottom_mem (data : List State) (hlen : 0 < data.length)
    (x : State) : x ∈ sift_down_to_bottom data 0 ↔ x ∈ data := by
  unfold sift_down_to_bottom sift_down_loop
  obtain ⟨g1, g2, g3⟩ := sift_down_go_spec data.length (data.length + 1)
    data 0 hlen rfl
  rw [sift_up_mem _ _ _ (by rw [g1]; omega)]
  exact g3 x

theorem getS_mem (l : List State) (k : Nat) (hk : k < l.length) :
    getS l k ∈ l := by
  unfold getS
  rw [List.getD_eq_getElem l ⟨0, 0⟩ hk]
  exact List.getElem_mem hk

theorem heap_pop_none {data : List State} (h : heap_pop data = none) :
    data = [] := by
  unfold heap_pop at h
  split at h
  · rename_i hlen
    exact List.length_eq_zero.mp hlen
  · dsimp only at h
    split at h <;> cases h

theorem heap_pop_some {data : List State} {s : State} {data2 : List State}
    (h : heap_pop data = some (s, data2)) :
    s ∈ data ∧ (∀ x, x ∈ data2 → x ∈ data) ∧
      (∀ x, x ∈ data → x = s ∨ x ∈ data2) := by
  unfold heap_pop at h
  split at h
  · cases h
  · rename_i hlen0
    dsimp only at h
    split at h
    · rename_i hrest0
      cases h
      have hlen1 : data.length = 1 := by
        rw [List.length_take] at hrest0
        omega
      refine ⟨getS_mem data _ (by omega), ?_, ?_⟩
      · intro x hx
        cases hx
      · intro x hx
        left
        obtain ⟨a, ha⟩ := List.length_eq_one.mp hlen1
        rw [ha] at hx
        simp at hx
        rw [hx, ha]
        rfl
    · rename_i hrest0
      cases h
      have hlen : 2 ≤ data.length := by
        rw [List.length_take] at hrest0
        omega
      have htlen : (data.take (data.length - 1)).length = data.length - 1 := by
        rw [List.length_take]
        omega
      have hslen : ((data.take (data.length - 1)).set 0
          (getS data (data.length - 1))).length = data.length - 1 := by
        rw [List.length_set, htlen]
      have hmemsift : ∀ x, x ∈ sift_down_to_bottom
          ((data.take (data.length - 1)).set 0 (getS data (data.length - 1)))
          0 ↔ x ∈ (data.take (data.length - 1)).set 0
            (getS data (data.length - 1)) := by
        intro x
        exact sift_down_to_bottom_mem _ (by omega) x
      refine ⟨?_, ?_, ?_⟩
      · have : getS (data.take (data.length - 1)) 0 ∈ data.take (data.length - 1) :=
          getS_mem _ 0 (by omega)
        exact List.mem_of_mem_take this
      · intro x hx
        rw [hmemsift x] at hx
        rcases List.mem_or_eq_of_mem_set hx with hx | hx
        · exact List.mem_of_mem_take hx
        · rw [hx]
          exact getS_mem data _ (by omega)
      · intro x hx
        rw [List.mem_iff_getElem] at hx
        obtain ⟨k, hk, hkx⟩ := hx
        by_cases hk0 : k = 0
        · left
          rw [← hkx]
          unfold getS
          rw [List.getD_eq_getElem _ _ (by omega)]
          rw [List.getElem_take]
          congr 1
          try omega
        · right
          rw [hmemsift x]
          by_cases hklast : k = data.length - 1
          · -- x is the last element, now sitting at position 0
            rw [List.mem_iff_getElem]
            refine ⟨0, by omega, ?_⟩
            rw [List.getElem_set, if_pos rfl, ← hkx]
            unfold getS
            rw [List.getD_eq_getElem _ _ (by omega)]
            congr 1
            try omega
          · rw [List.mem_iff_getElem]
            refine ⟨k, by omega, ?_⟩
            rw [List.getElem_set, if_neg (by omega), List.getElem_take]
            exact hkx

theorem index_roundtrip (width u v : Int) (h1 : 0 ≤ u) (h2 : u < width)
    (h3 : 0 ≤ v) : index_to_point (u + v * width) width = (u, v) := by
  unfold index_to_point
  have hmod : (u + v * width) % width = u := by
    rw [Int.add_mul_emod_self]
    exact Int.emod_eq_of_lt h1 h2
  have hdiv : (u + v * width) / width = v := by
    rw [Int.add_mul_ediv_right _ _ (by omega : width ≠ 0),
      Int.ediv_eq_zero_of_lt h1 h2]
    omega
  rw [hmod, hdiv]

theorem point_index_roundtrip (width : Int) (p : TPoint) (h1 : 0 ≤ p.1)
    (h2 : p.1 < width) (h3 : 0 ≤ p.2) :
    index_to_point (point_to_index p width) width = p := by
  unfold point_to_index
  rw [index_roundtrip width p.1 p.2 h1 h2 h3]

theorem mem_heap_items {h : List State} {idx : Int} :
    idx ∈ heap_items h ↔ ∃ s ∈ h, s.item = idx := by
  unfold heap_items
  exact List.mem_map

theorem heap_items_push (data : List State) (s : State) (idx : Int) :
    idx ∈ heap_items (heap_push data s) ↔
      idx ∈ heap_items data ∨ idx = s.item := by
  rw [mem_heap_items]
  constructor
  · rintro ⟨s2, hs2, rfl⟩
    rcases (heap_push_mem data s s2).mp hs2 with h | h
    · exact Or.inl (mem_heap_items.mpr ⟨s2, h, rfl⟩)
    · rw [h]
      exact Or.inr rfl
  · rintro (h | h)
    · obtain ⟨s2, hs2, rfl⟩ := mem_heap_items.mp h
      exact ⟨s2, (heap_push_mem data s s2).mpr (Or.inl hs2), rfl⟩
    · exact ⟨s, (heap_push_mem data s s).mpr (Or.inr rfl), h.symm⟩

theorem expand_spec (g : AGraph) (t : TPoint) (ci : Int) (cur : TPoint) :
    ∀ (ns : List TPoint) (st : AStar), (∀ p ∈ ns, p ∈ g.neighboors cur) →
      (∀ i, st.costs i ≠ none →
        (expand g t g.width g.height ci cur ns st).costs i ≠ none) ∧
      (∀ j, st.came_from j ≠ none →
        (expand g t g.width g.height ci cur ns st).came_from j ≠ none) ∧
      (∀ j i, (expand g t g.width g.height ci cur ns st).came_from j = some i →
        st.came_from j = some i ∨
          (i = ci ∧ ∃ p, GStep g cur p ∧ j = point_to_index p g.width)) ∧
      (∀ idx, idx ∈ heap_items st.frontier →
        idx ∈ heap_items (expand g t g.width g.height ci cur ns st).frontier) ∧
      (∀ idx, idx ∈ heap_items
          (expand g t g.width g.height ci cur ns st).frontier →
        idx ∈ heap_items st.frontier ∨
          (expand g t g.width g.height ci cur ns st).came_from idx ≠ none) ∧
      (∀ i, (expand g t g.width g.height ci cur ns st).costs i ≠ none →
        st.costs i ≠ none ∨
          i ∈ heap_items (expand g t g.width g.height ci cur ns st).frontier) ∧
      (∀ p, p ∈ ns → GStep g cur p →
        (expand g t g.width g.height ci cur ns st).costs
          (point_to_index p g.width) ≠ none) := by
  intro ns
  induction ns with
  | nil =>
    intro st hns
    refine ⟨fun i h => h, fun j h => h, fun j i h => Or.inl h,
      fun idx h => h, fun idx h => Or.inl h, fun i h => Or.inl h,
      fun p hp => absurd hp (List.not_mem_nil p)⟩
  | cons q rest ih =>
    intro st hns
    obtain ⟨qx, qy⟩ := q
    unfold expand
    dsimp only
    by_cases hskip : qx < 0 ∨ qy < 0 ∨ qx ≥ g.width ∨ qy ≥ g.height ∨
        g.is_walkable qx qy = false
    · rw [if_pos hskip]
      obtain ⟨i1, i2, i3, i4, i5, i6, i7⟩ :=
        ih st (fun p hp => hns p (List.mem_cons_of_mem _ hp))
      refine ⟨i1, i2, i3, i4, i5, i6, ?_⟩
      intro p hp hstep
      rcases List.mem_cons.mp hp with hp | hp
      · exfalso
        unfold GStep at hstep
        rw [hp] at hstep
        dsimp only at hstep
        obtain ⟨_, a1, a2, a3, a4, a5⟩ := hstep
        rcases hskip with h | h | h | h | h
        · omega
        · omega
        · omega
        · omega
        · rw [a5] at h
          cases h
      · exact i7 p hp hstep
    · rw [if_neg hskip]
      push_neg at hskip
      obtain ⟨hx0, hy0, hxw, hyh, hwalk⟩ := hskip
      have hwalk2 : g.is_walkable qx qy = true := by
        cases hq : g.is_walkable qx qy
        · exact absurd hq hwalk
        · rfl
      have hstepq : GStep g cur (qx, qy) :=
        ⟨hns (qx, qy) (List.mem_cons_self _ _), by omega, by omega,
          by omega, by omega, hwalk2⟩
      cases hco : st.costs (point_to_index (qx, qy) g.width) with
      | none =>
        dsimp only
        rw [if_pos rfl]
        obtain ⟨i1, i2, i3, i4, i5, i6, i7⟩ :=
          ih _ (fun p hp => hns p (List.mem_cons_of_mem _ hp))
        refine ⟨?_, ?_, ?_, ?_, ?_, ?_, ?_⟩
        · intro i hi
          apply i1
          dsimp only
          split
          · exact fun h => Option.noConfusion h
          · exact hi
        · intro j hj
          apply i2
          dsimp only
          split
          · exact fun h => Option.noConfusion h
          · exact hj
        · intro j i hji
          rcases i3 j i hji with h | h
          · dsimp only at h
            rcases (em (j = point_to_index (qx, qy) g.width)) with hj | hj
            · rw [if_pos hj] at h
              cases h
              exact Or.inr ⟨rfl, (qx, qy), hstepq, hj⟩
            · rw [if_neg hj] at h
              exact Or.inl h
          · exact Or.inr h
        · intro idx hidx
          apply i4
          dsimp only
          rw [heap_items_push]
          exact Or.inl hidx
        · intro idx hidx
          rcases i5 idx hidx with h | h
          · dsimp only at h
            rw [heap_items_push] at h
            rcases h with h | h
            · exact Or.inl h
            · right
              apply i2
              dsimp only
              rw [if_pos h]
              exact fun hc => Option.noConfusion hc
          · exact Or.inr h
        · intro i hi
          rcases i6 i hi with h | h
          · dsimp only at h
            rcases (em (i = point_to_index (qx, qy) g.width)) with hj | hj
            · right
              apply i4
              dsimp only
              rw [heap_items_push]
              exact Or.inr hj
            · rw [if_neg hj] at h
              exact Or.inl h
          · exact Or.inr h
        · intro p hp hstep
          rcases List.mem_cons.mp hp with hp | hp
          · apply i1
            dsimp only
            rw [hp]
            rw [if_pos rfl]
            exact fun hc => Option.noConfusion hc
          · exact i7 p hp hstep
      | some old =>
        dsimp only
        by_cases hlt : (st.costs ci).getD 0 + g.cost_between cur (qx, qy) < old
        · rw [if_pos (by rw [decide_eq_true hlt])]
          obtain ⟨i1, i2, i3, i4, i5, i6, i7⟩ :=
            ih _ (fun p hp => hns p (List.mem_cons_of_mem _ hp))
          refine ⟨?_, ?_, ?_, ?_, ?_, ?_, ?_⟩
          · intro i hi
            apply i1
            dsimp only
            split
            · exact fun h => Option.noConfusion h
            · exact hi
          · intro j hj
            apply i2
            dsimp only
            split
            · exact fun h => Option.noConfusion h
            · exact hj
          · intro j i hji
            rcases i3 j i hji with h | h
            · dsimp only at h
              rcases (em (j = point_to_index (qx, qy) g.width)) with hj | hj
              · rw [if_pos hj] at h
                cases h
                exact Or.inr ⟨rfl, (qx, qy), hstepq, hj⟩
              · rw [if_neg hj] at h
                exact Or.inl h
            · exact Or.inr h
          · intro idx hidx
            apply i4
            dsimp only
            rw [heap_items_push]
            exact Or.inl hidx
          · intro idx hidx
            rcases i5 idx hidx with h | h
            · dsimp only at h
              rw [heap_items_push] at h
              rcases h with h | h
              · exact Or.inl h
              · right
                apply i2
                dsimp only
                rw [if_pos h]
                exact fun hc => Option.noConfusion hc
            · exact Or.inr h
          · intro i hi
            rcases i6 i hi with h | h
            · dsimp only at h
              rcases (em (i = point_to_index (qx, qy) g.width)) with hj | hj
              · right
                apply i4
                dsimp only
                rw [heap_items_push]
                exact Or.inr hj
              · rw [if_neg hj] at h
                exact Or.inl h
            · exact Or.inr h
          · intro p hp hstep
            rcases List.mem_cons.mp hp with hp | hp
            · apply i1
              dsimp only
              rw [hp]
              rw [if_pos rfl]
              exact fun hc => Option.noConfusion hc
            · exact i7 p hp hstep
        · rw [if_neg (by rw [decide_eq_false hlt]; exact Bool.false_ne_true)]
          obtain ⟨i1, i2, i3, i4, i5, i6, i7⟩ :=
            ih st (fun p hp => hns p (List.mem_cons_of_mem _ hp))
          refine ⟨i1, i2, i3, i4, i5, i6, ?_⟩
          intro p hp hstep
          rcases List.mem_cons.mp hp with hp | hp
          · apply i1
            rw [hp, hco]
            exact fun hc => Option.noConfusion hc
          · exact i7 p hp hstep

theorem astar_loop_spec (g : AGraph) (t : TPoint) (fi ti : Int) :
    ∀ (fuel : Nat) (st : AStar) (cf : Int → Option Int) (c : Rat),
      AInv g fi ti st →
      astar_loop g t ti g.width g.height fuel st = some (cf, c) →
      (∀ j i, cf j = some i →
        ∃ p, GStep g (index_to_point i g.width) p ∧
          j = point_to_index p g.width) ∧
      (∀ j i, cf j = some i → i = fi ∨ cf i ≠ none) ∧
      ((ti = fi ∨ cf ti ≠ none) ∨
        (∃ costs2 : Int → Option Rat,
          costs2 fi ≠ none ∧ costs2 ti = none ∧
          (∀ i, costs2 i ≠ none →
            ∀ p, GStep g (index_to_point i g.width) p →
              costs2 (point_to_index p g.width) ≠ none))) := by
  intro fuel
  induction fuel with
  | zero =>
    intro st cf c hinv hloop
    cases hloop
  | succ fuel ih =>
    intro st cf c hinv hloop
    unfold astar_loop at hloop
    cases hpop : heap_pop st.frontier with
    | none =>
      rw [hpop] at hloop
      dsimp only at hloop
      cases hloop
      have hempty : st.frontier = [] := heap_pop_none hpop
      refine ⟨hinv.edge, hinv.chain, Or.inr ⟨st.costs, hinv.fromcost, ?_, ?_⟩⟩
      · cases hcost : st.costs ti with
        | none => rfl
        | some v =>
          exfalso
          have := hinv.tofront (by rw [hcost]; exact fun h => Option.noConfusion h)
          rw [hempty] at this
          cases this
      · intro i hi p hp
        rcases hinv.closed i hi with h | h
        · rw [hempty] at h
          cases h
        · exact h p hp
    | some pr =>
      obtain ⟨s, fr2⟩ := pr
      rw [hpop] at hloop
      dsimp only at hloop
      obtain ⟨hsmem, hsub, hsup⟩ := heap_pop_some hpop
      by_cases hbreak : s.item = ti
      · rw [if_pos hbreak] at hloop
        cases hloop
        refine ⟨hinv.edge, hinv.chain, Or.inl ?_⟩
        have : s.item ∈ heap_items st.frontier :=
          mem_heap_items.mpr ⟨s, hsmem, rfl⟩
        rw [hbreak] at this
        rcases hinv.fitems ti this with h | h
        · exact Or.inl h
        · exact Or.inr h
      · rw [if_neg hbreak] at hloop
        set stm : AStar := { st with frontier := fr2 } with hstm
        obtain ⟨e1, e2, e3, e4, e5, e6, e7⟩ := expand_spec g t s.item
          (index_to_point s.item g.width)
          (g.neighboors (index_to_point s.item g.width)) stm (fun p hp => hp)
        have hfr2sub : ∀ idx, idx ∈ heap_items fr2 →
            idx ∈ heap_items st.frontier := by
          intro idx hidx
          obtain ⟨s2, hs2, rfl⟩ := mem_heap_items.mp hidx
          exact mem_heap_items.mpr ⟨s2, hsub s2 hs2, rfl⟩
        have hsitem : s.item = fi ∨ st.came_from s.item ≠ none :=
          hinv.fitems s.item (mem_heap_items.mpr ⟨s, hsmem, rfl⟩)
        refine ih _ cf c ⟨?_, ?_, ?_, ?_, ?_, ?_⟩ hloop
        · intro j i hji
          rcases e3 j i hji with h | ⟨hi, p, hp, hj⟩
          · exact hinv.edge j i h
          · rw [hi]
            exact ⟨p, hp, hj⟩
        · intro j i hji
          rcases e3 j i hji with h | ⟨hi, p, hp, hj⟩
          · rcases hinv.chain j i h with h2 | h2
            · exact Or.inl h2
            · exact Or.inr (e2 i h2)
          · rw [hi]
            rcases hsitem with h2 | h2
            · exact Or.inl h2
            · exact Or.inr (e2 s.item h2)
        · intro idx hidx
          rcases e5 idx hidx with h | h
          · rcases hinv.fitems idx (hfr2sub idx h) with h2 | h2
            · exact Or.inl h2
            · exact Or.inr (e2 idx h2)
          · exact Or.inr h
        · intro i hi
          rcases e6 i hi with h | h
          · rcases hinv.closed i h with h2 | h2
            · obtain ⟨s2, hs2, hs2i⟩ := mem_heap_items.mp h2
              rcases hsup s2 hs2 with h3 | h3
              · right
                intro p hp
                have hieq : i = s.item := by rw [← hs2i, h3]
                rw [hieq] at hp
                exact e7 p hp.1 hp
              · left
                exact e4 i (mem_heap_items.mpr ⟨s2, h3, hs2i⟩)
            · right
              intro p hp
              exact e1 _ (h2 p hp)
          · exact Or.inl h
        · intro hti
          rcases e6 ti hti with h | h
          · have := hinv.tofront h
            obtain ⟨s2, hs2, hs2i⟩ := mem_heap_items.mp this
            rcases hsup s2 hs2 with h3 | h3
            · exfalso
              rw [h3] at hs2i
              exact hbreak hs2i
            · exact e4 ti (mem_heap_items.mpr ⟨s2, h3, hs2i⟩)
          · exact h
        · exact e1 fi hinv.fromcost

theorem reconstruct_loop_sound (g : AGraph) (cf : Int → Option Int) (fi : Int)
    (hedge : ∀ j i, cf j = some i →
      ∃ p, GStep g (index_to_point i g.width) p ∧
        j = point_to_index p g.width) :
    ∀ (fuel : Nat) (current : Int) (acc : List TPoint) (l : List TPoint)
      (z : TPoint),
      (index_to_point current g.width :: acc).Chain' (GStep g) →
      (index_to_point current g.width :: acc).getLast? = some z →
      reconstruct_loop cf fi g.width fuel current acc = some (some l) →
      l.Chain' (GStep g) ∧ l.head? = some (index_to_point fi g.width) ∧
        l.getLast? = some z := by
  intro fuel
  induction fuel with
  | zero =>
    intro current acc l z hch hlast h
    cases h
  | succ fuel ih =>
    intro current acc l z hch hlast h
    unfold reconstruct_loop at h
    split at h
    · rename_i hcur
      cases h
      rw [← hcur]
      exact ⟨hch, rfl, hlast⟩
    · rename_i hcur
      cases hcf : cf current with
      | none =>
        rw [hcf] at h
        cases h
      | some entry =>
        rw [hcf] at h
        obtain ⟨p, hstep, hj⟩ := hedge current entry hcf
        have hdec : index_to_point current g.width = p := by
          rw [hj]
          obtain ⟨_, b1, b2, b3, _⟩ := hstep
          exact point_index_roundtrip g.width p b1 b2 b3
        refine ih entry (index_to_point current g.width :: acc) l z ?_ ?_ h
        · rw [List.chain'_cons]
          refine ⟨?_, hch⟩
          rw [hdec]
          exact hstep
        · rw [List.getLast?_cons_cons]
          exact hlast

theorem reconstruct_loop_no_none (cf : Int → Option Int) (fi width : Int)
    (hchain : ∀ j i, cf j = some i → i = fi ∨ cf i ≠ none) :
    ∀ (fuel : Nat) (current : Int) (acc : List TPoint),
      (current = fi ∨ cf current ≠ none) →
      reconstruct_loop cf fi width fuel current acc ≠ some none := by
  intro fuel
  induction fuel with
  | zero =>
    intro current acc hcur h
    cases h
  | succ fuel ih =>
    intro current acc hcur h
    unfold reconstruct_loop at h
    split at h
    · cases h
    · rename_i hne
      rcases hcur with hcur | hcur
      · exact hne hcur
      · cases hcf : cf current with
        | none => exact hcur hcf
        | some entry =>
          rw [hcf] at h
          exact ih entry _ (hchain current entry hcf) h

theorem chain'_tail_prop {α : Type} (R : α → α → Prop) :
    ∀ (l : List α), l.Chain' R → ∀ p ∈ l.tail, ∃ q, R q p := by
  intro l
  induction l with
  | nil =>
    intro _ p hp
    cases hp
  | cons a rest ih =>
    intro hch p hp
    cases rest with
    | nil => cases hp
    | cons b rest2 =>
      rw [List.chain'_cons] at hch
      rcases List.mem_cons.mp hp with hp | hp
      · rw [hp]
        exact ⟨a, hch.1⟩
      · exact ih hch.2 p hp

theorem joins_costed (g : AGraph) (costs2 : Int → Option Rat)
    (hclosure : ∀ i, costs2 i ≠ none →
      ∀ p, GStep g (index_to_point i g.width) p →
        costs2 (point_to_index p g.width) ≠ none) :
    ∀ (l : List TPoint) (a : TPoint),
      (a :: l).Chain' (GStep g) →
      0 ≤ a.1 → a.1 < g.width → 0 ≤ a.2 →
      costs2 (point_to_index a g.width) ≠ none →
      ∀ z, (a :: l).getLast? = some z →
        costs2 (point_to_index z g.width) ≠ none := by
  intro l
  induction l with
  | nil =>
    intro a hch h1 h2 h3 hcost z hz
    simp at hz
    rw [← hz]
    exact hcost
  | cons b rest ih =>
    intro a hch h1 h2 h3 hcost z hz
    rw [List.chain'_cons] at hch
    have hstep := hch.1
    have hbcost : costs2 (point_to_index b g.width) ≠ none := by
      apply hclosure (point_to_index a g.width) hcost
      rw [point_index_roundtrip g.width a h1 h2 h3]
      exact hstep
    obtain ⟨_, b1, b2, b3, _, _⟩ := hstep
    rw [List.getLast?_cons_cons] at hz
    exact ih b hch.2 b1 b2 b3 hbcost z hz

theorem astar_init_inv (g : AGraph) (f t : TPoint) :
    AInv g (point_to_index f g.width) (point_to_index t g.width)
      { frontier := heap_push [] ⟨0, point_to_index f g.width⟩,
        came_from := fun _ => none,
        costs := fun i => if i = point_to_index f g.width
          then some 0 else none } := by
  have hitems : heap_items (heap_push [] ⟨0, point_to_index f g.width⟩)
      = [point_to_index f g.width] := rfl
  refine ⟨?_, ?_, ?_, ?_, ?_, ?_⟩
  · intro j i h
    cases h
  · intro j i h
    cases h
  · intro idx h
    rw [hitems] at h
    simp at h
    exact Or.inl h
  · intro i hi
    left
    rw [hitems]
    dsimp only at hi
    by_cases hfi : i = point_to_index f g.width
    · rw [hfi]
      simp
    · rw [if_neg hfi] at hi
      exact absurd rfl hi
  · intro hti
    dsimp only at hti
    by_cases hfi : point_to_index t g.width = point_to_index f g.width
    · rw [hitems, hfi]
      simp
    · rw [if_neg hfi] at hti
      exact absurd rfl hti
  · dsimp only
    rw [if_pos rfl]
    exact fun h => Option.noConfusion h

theorem astar_path_sound (g : AGraph) (f t : TPoint) (fuel : Nat)
    (l : List TPoint)
    (hf1 : 0 ≤ f.1) (hf2 : f.1 < g.width) (hf3 : 0 ≤ f.2)
    (ht1 : 0 ≤ t.1) (ht2 : t.1 < g.width) (ht3 : 0 ≤ t.2)
    (h : astar_path fuel g f t = some (some l)) :
    l.Chain' (GStep g) ∧ l.head? = some f ∧ l.getLast? = some t := by
  unfold astar_path at h
  dsimp only at h
  split at h
  · cases h
  · rename_i cf cost hloop
    obtain ⟨A, B, C⟩ := astar_loop_spec g t (point_to_index f g.width)
      (point_to_index t g.width) fuel _ cf cost (astar_init_inv g f t) hloop
    unfold reconstruct_path at h
    have hres := reconstruct_loop_sound g cf (point_to_index f g.width) A
      fuel (point_to_index t g.width) [] l t ?_ ?_ h
    · obtain ⟨r1, r2, r3⟩ := hres
      refine ⟨r1, ?_, r3⟩
      rw [r2, point_index_roundtrip g.width f hf1 hf2 hf3]
    · simp
    · rw [point_index_roundtrip g.width t ht1 ht2 ht3]
      rfl

theorem astar_path_none_iff (g : AGraph) (f t : TPoint) (fuel : Nat)
    (r : Option (List TPoint))
    (hf1 : 0 ≤ f.1) (hf2 : f.1 < g.width) (hf3 : 0 ≤ f.2)
    (ht1 : 0 ≤ t.1) (ht2 : t.1 < g.width) (ht3 : 0 ≤ t.2)
    (h : astar_path fuel g f t = some r) :
    r = none ↔ ¬∃ l, Joins g f t l := by
  constructor
  · intro hr
    subst hr
    unfold astar_path at h
    dsimp only at h
    split at h
    · cases h
    · rename_i cf cost hloop
      obtain ⟨A, B, C⟩ := astar_loop_spec g t (point_to_index f g.width)
        (point_to_index t g.width) fuel _ cf cost (astar_init_inv g f t) hloop
      unfold reconstruct_path at h
      rcases C with hbrk | ⟨costs2, hfi, hti, hclos⟩
      · exact absurd h
          (reconstruct_loop_no_none cf (point_to_index f g.width) g.width B
            fuel (point_to_index t g.width) [] hbrk)
      · rintro ⟨l, hhead, hlast, hchain⟩
        cases l with
        | nil => cases hhead
        | cons a rest =>
          have haf : a = f := by
            simp at hhead
            exact hhead
          subst haf
          exact joins_costed g costs2 hclos rest a hchain hf1 hf2 hf3 hfi
            t hlast hti
  · intro hnl
    cases r with
    | none => rfl
    | some l =>
      exfalso
      obtain ⟨r1, r2, r3⟩ := astar_path_sound g f t fuel l hf1 hf2 hf3
        ht1 ht2 ht3 h
      exact hnl ⟨l, r2, r3, r1⟩

/-- C2 counterexample: the origin is never checked for walkability, so on
a map whose only cell is unwalkable, astar_path still returns the
single-cell path through it. -/
theorem C2_counterexample :
    astar_path_fourwaygrid 10 blockedWalk11 (0, 0) (0, 0)
        = some (some [(0, 0)]) ∧
    blockedWalk11.is_walkable 0 0 = false :=
  ⟨by with_unfolding_all rfl, rfl⟩

/-- C2 amended: for in-bounds endpoints, every returned path starts at
from, ends at to, steps only through enumerated neighbours, and every
cell after the first (the origin is included as given, unchecked) is in
bounds and walkable. -/
theorem C2_path_valid (g : AGraph) (f t : TPoint) (fuel : Nat)
    (l : List TPoint)
    (hf1 : 0 ≤ f.1) (hf2 : f.1 < g.width) (hf3 : 0 ≤ f.2)
    (hf4 : f.2 < g.height)
    (ht1 : 0 ≤ t.1) (ht2 : t.1 < g.width) (ht3 : 0 ≤ t.2)
    (ht4 : t.2 < g.height)
    (hl : astar_path fuel g f t = some (some l)) :
    l.head? = some f ∧ l.getLast? = some t ∧
    l.Chain' (fun a b => b ∈ g.neighboors a) ∧
    ∀ p ∈ l.tail, g.is_walkable p.1 p.2 = true ∧ 0 ≤ p.1 ∧ p.1 < g.width ∧
      0 ≤ p.2 ∧ p.2 < g.height := by
  obtain ⟨r1, r2, r3⟩ := astar_path_sound g f t fuel l hf1 hf2 hf3
    ht1 ht2 ht3 hl
  refine ⟨r2, r3, ?_, ?_⟩
  · exact List.Chain'.imp (fun a b h => h.1) r1
  · intro p hp
    obtain ⟨q, hq⟩ := chain'_tail_prop (GStep g) l r1 p hp
    obtain ⟨_, b1, b2, b3, b4, b5⟩ := hq
    exact ⟨b5, b1, b2, b3, b4⟩

theorem C2_path_valid_witness :
    ([((0 : Int), (0 : Int)), (0, 1), (1, 1)] : List TPoint).head?
        = some (0, 0) ∧
    ([((0 : Int), (0 : Int)), (0, 1), (1, 1)] : List TPoint).getLast?
        = some (1, 1) ∧
    ([((0 : Int), (0 : Int)), (0, 1), (1, 1)] : List TPoint).Chain'
      (fun a b => b ∈ (FourWayGridGraph openWalk22).neighboors a) ∧
    ∀ p ∈ ([((0 : Int), (0 : Int)), (0, 1), (1, 1)] : List TPoint).tail,
      (FourWayGridGraph openWalk22).is_walkable p.1 p.2 = true ∧
        0 ≤ p.1 ∧ p.1 < (FourWayGridGraph openWalk22).width ∧
        0 ≤ p.2 ∧ p.2 < (FourWayGridGraph openWalk22).height :=
  C2_path_valid (FourWayGridGraph openWalk22) (0, 0) (1, 1) 20 _
    (by decide) (by decide) (by decide) (by decide)
    (by decide) (by decide) (by decide) (by decide)
    (by with_unfolding_all rfl)

/-- C7 counterexample: astar_path can return Some although no sequence of
walkable neighbour-connected cells joins from to to, because the origin is
not checked for walkability. -/
theorem C7_counterexample :
    astar_path_fourwaygrid 10 blockedWalk11 (0, 0) (0, 0)
        = some (some [(0, 0)]) ∧
    ¬∃ l : List TPoint, l.head? = some (0, 0) ∧ l.getLast? = some (0, 0) ∧
      l.Chain' (fun a b => b ∈ (FourWayGridGraph blockedWalk11).neighboors a) ∧
      ∀ p ∈ l, (FourWayGridGraph blockedWalk11).is_walkable p.1 p.2 = true := by
  refine ⟨by with_unfolding_all rfl, ?_⟩
  rintro ⟨l, hh, _, _, hw⟩
  have hmem : ((0, 0) : TPoint) ∈ l := by
    cases l with
    | nil => cases hh
    | cons a r =>
      rw [List.head?_cons] at hh
      cases hh
      exact List.mem_cons_self _ _
  exact absurd (hw (0, 0) hmem) (by decide)

/-- C7 amended: whenever the modelled search terminates (returns some r),
r is the genuine Rust None exactly when no sequence of cells in which
every cell after the first is an in-bounds walkable enumerated neighbour
of its predecessor joins from to to; in particular on the sealed 10 x 10
scenario map the search from (0,4) to (5,4) yields the ordinary None
value. -/
theorem C7_none_iff_no_path :
    (∀ (g : AGraph) (f t : TPoint) (fuel : Nat) (r : Option (List TPoint)),
      0 ≤ f.1 → f.1 < g.width → 0 ≤ f.2 → f.2 < g.height →
      0 ≤ t.1 → t.1 < g.width → 0 ≤ t.2 → t.2 < g.height →
      astar_path fuel g f t = some r →
      (r = none ↔ ¬∃ l, Joins g f t l)) ∧
    astar_path_fourwaygrid 200 scenario_map2 (0, 4) (5, 4) = some none := by
  constructor
  · intro g f t fuel r hf1 hf2 hf3 hf4 ht1 ht2 ht3 ht4 h
    exact astar_path_none_iff g f t fuel r hf1 hf2 hf3 ht1 ht2 ht3 h
  · with_unfolding_all rfl

theorem C7_none_iff_no_path_witness :
    ∃ l, Joins (FourWayGridGraph openWalk22) (0, 0) (0, 0) l := by
  have h := C7_none_iff_no_path.1 (FourWayGridGraph openWalk22) (0, 0) (0, 0)
    10 (some [(0, 0)]) (by decide) (by decide) (by decide) (by decide)
    (by decide) (by decide) (by decide) (by decide)
    (by with_unfolding_all rfl)
  by_contra hn
  exact Option.noConfusion (h.mpr hn)

/-- C8 counterexample: for the out-of-grid (but in-array) point (2, 0) on
a 2 x 2 map, the flat index aliases cell (0, 1), and astar_path returns
Some of the single-cell path [(0, 1)], not of [(2, 0)]. -/
theorem C8_counterexample :
    astar_path_fourwaygrid 10 openWalk22 (2, 0) (2, 0)
        = some (some [(0, 1)]) ∧
    (((0 : Int), (1 : Int)) : TPoint) ≠ (2, 0) :=
  ⟨by with_unfolding_all rfl, by decide⟩

/-- C8 amended: for every graph and every in-bounds point p, the first pop
immediately matches the destination and astar_path returns the
single-element path [p]. -/
theorem C8_selfpath (g : AGraph) (p : TPoint) (fuel : Nat) (hfu : 1 ≤ fuel)
    (h1 : 0 ≤ p.1) (h2 : p.1 < g.width) (h3 : 0 ≤ p.2)
    (h4 : p.2 < g.height) :
    astar_path fuel g p p = some (some [p]) := by
  cases fuel with
  | zero => omega
  | succ n =>
    unfold astar_path
    dsimp only
    unfold astar_loop
    have hpop : heap_pop (heap_push [] ⟨0, point_to_index p g.width⟩)
        = some (⟨0, point_to_index p g.width⟩, []) := rfl
    rw [hpop]
    dsimp only
    rw [if_pos rfl]
    unfold reconstruct_path
    unfold reconstruct_loop
    rw [if_pos rfl]
    rw [point_index_roundtrip g.width p h1 h2 h3]

theorem C8_selfpath_witness :
    astar_path 10 (FourWayGridGraph openWalk22) (1, 1) (1, 1)
      = some (some [(1, 1)]) :=
  C8_selfpath (FourWayGridGraph openWalk22) (1, 1) 10 (by decide)
    (by decide) (by decide) (by decide) (by decide)
